import Mathlib

/-!
# boost::concurrent::sync_priority_queue

A shallow embedding of `include/boost/thread/concurrent_queues/sync_priority_queue.hpp`:

* `std.push_heap` / `std.pop_heap`: the two standard-library heap algorithms the
  store calls, embedded after the libstdc++ implementation (`bits/stl_heap.h`);
* `priority_queue`: `boost::detail::priority_queue`, the array-backed ordered store;
* `sync_priority_queue`: the synchronized shell.  One call of a public operation is
  one critical section, so it is a function on the queue state.  Whatever the other
  threads do while a waiting pull has released the mutex is given explicitly, as the
  list of wakeups the wait goes through.

The comparison object `_compare` is set at construction and never changes; it is the
parameter `comp` of every function that needs it.
-/

set_option autoImplicit false
set_option linter.unusedVariables false

/-- How a call of a C++ function can end: it returns a value, it throws, it never
returns because it is suspended on the condition variable with no wakeup left, or it
runs into undefined behaviour (a library precondition is violated). -/
inductive Outcome (β : Type) where
  | returned (v : β)
  | raised
  | blocked
  | undefined
  deriving DecidableEq, Repr

namespace std

variable {α : Type}

/-- The loop of `std::__push_heap`: the hole climbs while its parent is below
`value`; `value` is written into the hole when the loop stops.  The first argument
bounds the number of iterations; `holeIndex` iterations always suffice, since the
hole index strictly decreases. -/
def push_heap_loop (comp : α → α → Bool) (value : α) (topIndex : Nat) :
    Nat → List α → Nat → List α
  | 0, a, holeIndex => a.set holeIndex value
  | fuel + 1, a, holeIndex =>
    let parent := (holeIndex - 1) / 2
    if topIndex < holeIndex ∧ comp (a.getD parent value) value = true then
      push_heap_loop comp value topIndex fuel (a.set holeIndex (a.getD parent value)) parent
    else
      a.set holeIndex value

/-- The call `std::__push_heap(first, holeIndex, topIndex, value, comp)`. -/
def push_heap_at (comp : α → α → Bool) (a : List α) (holeIndex topIndex : Nat) (value : α) :
    List α :=
  push_heap_loop comp value topIndex holeIndex a holeIndex

/-- The call `std::push_heap(first, last, comp)` on the whole vector: the last element is the
value to place, the hole starts at its position. -/
def push_heap (comp : α → α → Bool) (a : List α) : List α :=
  match a.getLast? with
  | none => a
  | some value => push_heap_at comp a (a.length - 1) 0 value

/-- The first loop of `std::__adjust_heap`: while the hole has two children, the
larger child moves up into the hole.  Returns the array and `secondChild`, which is
also the hole index when the loop stops. -/
def adjust_heap_loop (comp : α → α → Bool) (len : Nat) (value : α) :
    Nat → List α → Nat → List α × Nat
  | 0, a, secondChild => (a, secondChild)
  | fuel + 1, a, secondChild =>
    if secondChild < (len - 1) / 2 then
      let holeIndex := secondChild
      let secondChild := 2 * (secondChild + 1)
      let secondChild :=
        if comp (a.getD secondChild value) (a.getD (secondChild - 1) value) = true
        then secondChild - 1 else secondChild
      adjust_heap_loop comp len value fuel (a.set holeIndex (a.getD secondChild value)) secondChild
    else
      (a, secondChild)

/-- The call `std::__adjust_heap(first, holeIndex, len, value, comp)`: the hole sinks to the
bottom of the heap of length `len` (a last node with a single child is handled after
the loop), then `value` climbs from there with `std::__push_heap`. -/
def adjust_heap (comp : α → α → Bool) (a : List α) (holeIndex len : Nat) (value : α) : List α :=
  let topIndex := holeIndex
  let r := adjust_heap_loop comp len value len a holeIndex
  let secondChild := r.2
  if len % 2 = 0 ∧ secondChild = (len - 2) / 2 then
    let secondChild := 2 * (secondChild + 1)
    push_heap_at comp (r.1.set r.2 (r.1.getD (secondChild - 1) value)) (secondChild - 1) topIndex value
  else
    push_heap_at comp r.1 r.2 topIndex value

/-- The call `std::pop_heap(first, last, comp)` on the whole vector: nothing happens on fewer
than two elements; otherwise the last element is taken out as `value`, the first
element moves to the last position, and `std::__adjust_heap` rebuilds the heap on the
first `last - first - 1` positions around `value`. -/
def pop_heap (comp : α → α → Bool) (a : List α) : List α :=
  match a.head?, a.getLast? with
  | some front, some value =>
    if 1 < a.length then
      adjust_heap comp (a.set (a.length - 1) front) 0 (a.length - 1) value
    else a
  | _, _ => a

end std

/-- The class `boost::detail::priority_queue`: the vector `_elements`. -/
structure priority_queue (α : Type) where
  _elements : List α
  deriving DecidableEq, Repr

namespace priority_queue

variable {α : Type}

/-- The store a default-constructed queue holds. -/
def init : priority_queue α := ⟨[]⟩

/-- The member `priority_queue::size`. -/
def size (q : priority_queue α) : Nat := q._elements.length

/-- The member `priority_queue::empty`. -/
def empty (q : priority_queue α) : Bool := q._elements.isEmpty

/-- The member `priority_queue::push` (both overloads): `push_back`, then `std::push_heap`. -/
def push (comp : α → α → Bool) (q : priority_queue α) (element : α) : priority_queue α :=
  ⟨std.push_heap comp (q._elements ++ [element])⟩

/-- The member `priority_queue::pull`: `std::pop_heap`, then `back()` is moved out and
`pop_back()` drops it.  There is no emptiness test in it: on an empty vector `back()`
and `pop_back()` have no defined behaviour. -/
def pull (comp : α → α → Bool) (q : priority_queue α) : Outcome (α × priority_queue α) :=
  let elements := std.pop_heap comp q._elements
  match elements.getLast? with
  | none => .undefined
  | some result => .returned (result, ⟨elements.dropLast⟩)

/-- The member `priority_queue::top`: `return _elements.back();`. -/
def top (q : priority_queue α) : Outcome α :=
  match q._elements.getLast? with
  | none => .undefined
  | some x => .returned x

end priority_queue

/-- The comparison `std::less` on natural numbers, the default `Compare`. -/
def natLess (a b : Nat) : Bool := decide (a < b)

/-- The requirement of the C++ standard on `Compare`: a strict weak ordering, that is
an irreflexive and transitive relation whose incomparability is transitive. -/
structure StrictWeakOrder {α : Type} (comp : α → α → Bool) : Prop where
  irrefl : ∀ a, comp a a = false
  trans : ∀ a b c, comp a b = true → comp b c = true → comp a c = true
  incomp_trans : ∀ a b c, comp a b = false → comp b a = false →
    comp b c = false → comp c b = false → comp a c = false ∧ comp c a = false

/-- The binary max-heap property on the backing array: no element is below its
parent, the parent of index `i > 0` being index `(i - 1) / 2`. -/
def IsHeap {α : Type} (comp : α → α → Bool) (a : List α) : Prop :=
  ∀ i x y, 0 < i → a[(i - 1) / 2]? = some x → a[i]? = some y → comp x y = false

/-- The loop invariant of `std::__push_heap`: the array is a heap apart from the edge
into the hole `h`; the value in hand and the parent of the hole both dominate the
children of the hole. -/
structure HoleInv {α : Type} (comp : α → α → Bool) (a : List α) (h : Nat) (v : α) : Prop where
  inside : h < a.length
  apart : ∀ i x y, 0 < i → i ≠ h → a[(i - 1) / 2]? = some x → a[i]? = some y → comp x y = false
  below : ∀ c y, 0 < c → (c - 1) / 2 = h → a[c]? = some y → comp v y = false
  above : ∀ c x y, 0 < c → (c - 1) / 2 = h → 0 < h →
    a[(h - 1) / 2]? = some x → a[c]? = some y → comp x y = false

/-- Modelled from the spec: `queue_op_status` is declared in `queue_op_status.hpp`,
which is not among the sources; these are the two statuses `try_push` returns. -/
inductive queue_op_status where
  | success
  | closed
  deriving DecidableEq, Repr

/-- Modelled from the spec: `cv_status`, what a wait with a deadline reports. -/
inductive cv_status where
  | no_timeout
  | timeout
  deriving DecidableEq, Repr

/-- What an operation of the shell does to the store and to the condition variable
`not_empty_`, in the order in which it does it. -/
inductive Effect (α : Type) where
  | data_push (x : α)
  | data_pull
  | notify_one
  | notify_all
  deriving DecidableEq, Repr

/-- The state of a `sync_priority_queue` under its mutex `mtx_`: the store `data_`
and the flag `closed_` of the base class, and the record of the effects so far. -/
structure sync_priority_queue (α : Type) where
  data_ : priority_queue α
  closed_ : Bool
  effects : List (Effect α)
  deriving DecidableEq, Repr

/-- A reading of `chrono::steady_clock`. -/
abbrev time_point := Int

/-- A `chrono` duration; it may be negative. -/
abbrev duration := Int

/-- An operation that another thread completes on the queue while a waiting pull has
released the mutex. -/
inductive Other (α : Type) where
  | push (x : α)
  | pull
  | close
  deriving DecidableEq, Repr

/-- One return of a wait on `not_empty_`: what the other threads did to the queue
while the mutex was released, and what the wait reports.  A wakeup with no operation
of another thread and `no_timeout` is a spurious one. -/
structure Wakeup (α : Type) where
  others : List (Other α)
  status : cv_status
  deriving DecidableEq, Repr

namespace sync_priority_queue

variable {α : Type}

/-- The constructor `sync_priority_queue()`: an empty store; the base class, by the
spec, starts the queue open. -/
def init : sync_priority_queue α := ⟨priority_queue.init, false, []⟩

/-- Modelled from the spec: `sync_queue_base::closed`, which is not among the sources,
reads the closed flag. -/
def closed (s : sync_priority_queue α) : Bool := s.closed_

/-- Modelled from the spec: `sync_queue_base::close`, which is not among the sources,
marks the queue closed and wakes all the waiters. -/
def close (s : sync_priority_queue α) : sync_priority_queue α :=
  { s with closed_ := true, effects := s.effects ++ [Effect.notify_all] }

/-- The destructor `~sync_priority_queue`. -/
def destroy (s : sync_priority_queue α) : sync_priority_queue α :=
  if !s.closed then s.close else s

/-- The private `pull(unique_lock<mutex>&)` and `pull(lock_guard<mutex>&)`:
`return super::data_.pull();`. -/
def pull_lk (comp : α → α → Bool) (s : sync_priority_queue α) :
    Outcome α × sync_priority_queue α :=
  match s.data_.pull comp with
  | .returned r => (.returned r.1, { s with data_ := r.2, effects := s.effects ++ [Effect.data_pull] })
  | .raised => (.raised, s)
  | .blocked => (.blocked, s)
  | .undefined => (.undefined, s)

/-- The wrapper `make_optional( ... )` around a call. -/
def make_optional (r : Outcome α × sync_priority_queue α) :
    Outcome (Option α) × sync_priority_queue α :=
  match r.1 with
  | .returned x => (.returned (some x), r.2)
  | .raised => (.raised, r.2)
  | .blocked => (.blocked, r.2)
  | .undefined => (.undefined, r.2)

/-- The private `push(unique_lock<mutex>&, const T&)` and
`push(lock_guard<mutex>&, const T&)`: insert, then `notify_one`. -/
def push_lk (comp : α → α → Bool) (s : sync_priority_queue α) (elem : α) :
    sync_priority_queue α :=
  { s with data_ := s.data_.push comp elem,
           effects := s.effects ++ [Effect.data_push elem, Effect.notify_one] }

/-- The private `push_rvalue` (both lock types): insert the moved item, then
`notify_one`. -/
def push_rvalue (comp : α → α → Bool) (s : sync_priority_queue α) (elem : α) :
    sync_priority_queue α :=
  { s with data_ := s.data_.push comp elem,
           effects := s.effects ++ [Effect.data_push elem, Effect.notify_one] }

/-- The public `push(const T&)`. -/
def push (comp : α → α → Bool) (s : sync_priority_queue α) (elem : α) :
    sync_priority_queue α :=
  push_lk comp s elem

/-- The public `push(T&&)`. -/
def push_move (comp : α → α → Bool) (s : sync_priority_queue α) (elem : α) :
    sync_priority_queue α :=
  push_rvalue comp s elem

/-- The public `try_push(const T&)`. -/
def try_push (comp : α → α → Bool) (s : sync_priority_queue α) (elem : α) :
    queue_op_status × sync_priority_queue α :=
  if s.closed then (queue_op_status.closed, s)
  else (queue_op_status.success, push_lk comp s elem)

/-- The public `try_push(T&&)`. -/
def try_push_move (comp : α → α → Bool) (s : sync_priority_queue α) (elem : α) :
    queue_op_status × sync_priority_queue α :=
  if s.closed then (queue_op_status.closed, s)
  else (queue_op_status.success, push_rvalue comp s elem)

/-- The public `pull_no_wait()`. -/
def pull_no_wait (comp : α → α → Bool) (s : sync_priority_queue α) :
    Outcome (Option α) × sync_priority_queue α :=
  if s.data_.empty then (.returned none, s)
  else make_optional (pull_lk comp s)

/-- The public `try_pull_no_wait()`; `owns_lock` tells whether `try_to_lock` got the mutex. -/
def try_pull_no_wait (comp : α → α → Bool) (owns_lock : Bool) (s : sync_priority_queue α) :
    Outcome (Option α) × sync_priority_queue α :=
  if !owns_lock || s.data_.empty then (.returned none, s)
  else make_optional (pull_lk comp s)

/-- The effect on the queue of one operation of another thread. -/
def other (comp : α → α → Bool) (s : sync_priority_queue α) : Other α → sync_priority_queue α
  | .push x => push comp s x
  | .pull => (pull_no_wait comp s).2
  | .close => close s

/-- Modelled from the spec: `condition_variable::wait` and `wait_until`, which are not
among the sources.  The wait releases the mutex, the other threads run, the mutex is
taken again and the wait reports its status.  The deadline `tp` does not decide the
status here: every status is allowed for every deadline. -/
def wait_until (comp : α → α → Bool) (tp : time_point) (w : Wakeup α)
    (s : sync_priority_queue α) : cv_status × sync_priority_queue α :=
  (w.status, w.others.foldl (other comp) s)

/-- Modelled from the spec: `condition_variable::wait` without a deadline. -/
def wait (comp : α → α → Bool) (w : Wakeup α) (s : sync_priority_queue α) :
    sync_priority_queue α :=
  w.others.foldl (other comp) s

/-- Modelled from the spec: `sync_queue_base::wait_until_not_empty`, which is not
among the sources: it returns once the store is not empty, raises when the store is
empty and the queue closed, and waits on `not_empty_` otherwise.  The list holds the
wakeups the waits go through; with none left the call stays blocked. -/
def wait_until_not_empty (comp : α → α → Bool) :
    List (Wakeup α) → sync_priority_queue α → Outcome Unit × sync_priority_queue α
  | wakes, s =>
    if !s.data_.empty then (.returned (), s)
    else if s.closed then (.raised, s)
    else
      match wakes with
      | [] => (.blocked, s)
      | w :: rest => wait_until_not_empty comp rest (wait comp w s)

/-- What follows a call of `wait_until_not_empty` in `pull()` and `try_pull()`. -/
def after_wait (r : Outcome Unit × sync_priority_queue α)
    (k : sync_priority_queue α → Outcome α × sync_priority_queue α) :
    Outcome α × sync_priority_queue α :=
  match r.1 with
  | .returned _ => k r.2
  | .raised => (.raised, r.2)
  | .blocked => (.blocked, r.2)
  | .undefined => (.undefined, r.2)

/-- The blocking `pull()`. -/
def pull (comp : α → α → Bool) (wakes : List (Wakeup α)) (s : sync_priority_queue α) :
    Outcome α × sync_priority_queue α :=
  after_wait (wait_until_not_empty comp wakes s) (pull_lk comp)

/-- The public `pull_until(tp)`. -/
def pull_until (comp : α → α → Bool) (tp : time_point) :
    List (Wakeup α) → sync_priority_queue α → Outcome (Option α) × sync_priority_queue α
  | wakes, s =>
    if s.data_.empty then
      if s.closed then (.raised, s)
      else
        match wakes with
        | [] => (.blocked, s)
        | w :: rest =>
          if (wait_until comp tp w s).1 = cv_status.timeout then
            (.returned none, (wait_until comp tp w s).2)
          else pull_until comp tp rest (wait_until comp tp w s).2
    else make_optional (pull_lk comp s)

/-- The public `pull_for(dura)`; `now` is what `clock::now()` reads at the call. -/
def pull_for (comp : α → α → Bool) (now : time_point) (dura : duration)
    (wakes : List (Wakeup α)) (s : sync_priority_queue α) :
    Outcome (Option α) × sync_priority_queue α :=
  pull_until comp (now + dura) wakes s

/-- The public `try_pull()`; `owns_lock` tells whether `try_to_lock` got the mutex. -/
def try_pull (comp : α → α → Bool) (owns_lock : Bool) (wakes : List (Wakeup α))
    (s : sync_priority_queue α) : Outcome (Option α) × sync_priority_queue α :=
  if !owns_lock then (.returned none, s)
  else make_optional (after_wait (wait_until_not_empty comp wakes s) (pull_lk comp))

end sync_priority_queue

/-- The stores that `push` and `pull` can produce from the empty store. -/
inductive priority_queue.Reachable {α : Type} (comp : α → α → Bool) :
    priority_queue α → Prop where
  | init : priority_queue.Reachable comp priority_queue.init
  | push {q : priority_queue α} (x : α) :
      priority_queue.Reachable comp q → priority_queue.Reachable comp (q.push comp x)
  | pull {q q' : priority_queue α} {x : α} :
      priority_queue.Reachable comp q → q.pull comp = Outcome.returned (x, q') →
      priority_queue.Reachable comp q'

/-- The store's `pull` called `n` times in a row: the items in the order in which
they come out, and the store that is left.  It stops at a call with no result. -/
def priority_queue.drain {α : Type} (comp : α → α → Bool) :
    Nat → priority_queue α → List α × priority_queue α
  | 0, q => ([], q)
  | n + 1, q =>
    match q.pull comp with
    | .returned r => (r.1 :: (priority_queue.drain comp n r.2).1, (priority_queue.drain comp n r.2).2)
    | _ => ([], q)

namespace sync_priority_queue

variable {α : Type}

/-- The public `push` called with each item of a list in turn. -/
def push_all (comp : α → α → Bool) (s : sync_priority_queue α) (xs : List α) :
    sync_priority_queue α :=
  xs.foldl (push comp) s

/-- The blocking `pull()` called `n` times in a row by one thread, each call with the
wakeups `wakes` at its disposal: the outcomes in order, and the final state. -/
def pull_repeat (comp : α → α → Bool) (wakes : List (Wakeup α)) :
    Nat → sync_priority_queue α → List (Outcome α) × sync_priority_queue α
  | 0, s => ([], s)
  | n + 1, s =>
    ((pull comp wakes s).1 :: (pull_repeat comp wakes n (pull comp wakes s).2).1,
      (pull_repeat comp wakes n (pull comp wakes s).2).2)

/-- The public `try_push` (the copy overload when `move` is false, the move overload otherwise)
called with each item of a list in turn: the statuses in order, and the final state. -/
def try_push_all (comp : α → α → Bool) (move : Bool) :
    List α → sync_priority_queue α → List queue_op_status × sync_priority_queue α
  | [], s => ([], s)
  | x :: xs, s =>
    let r := if move then try_push_move comp s x else try_push comp s x
    (r.1 :: (try_push_all comp move xs r.2).1, (try_push_all comp move xs r.2).2)

end sync_priority_queue

/-- A call of one of the pull operations, with what the environment decides for it:
the wakeups of its waits, the clock reading, whether `try_to_lock` gets the mutex. -/
inductive PullCall (α : Type) where
  | pull (wakes : List (Wakeup α))
  | pull_until (tp : time_point) (wakes : List (Wakeup α))
  | pull_for (now : time_point) (dura : duration) (wakes : List (Wakeup α))
  | pull_no_wait
  | try_pull (owns_lock : Bool) (wakes : List (Wakeup α))
  | try_pull_no_wait (owns_lock : Bool)
  deriving DecidableEq, Repr

namespace PullCall

variable {α : Type}

/-- The call made on a queue state; the item of a blocking `pull()` is reported as a
present result. -/
def run (comp : α → α → Bool) (s : sync_priority_queue α) :
    PullCall α → Outcome (Option α) × sync_priority_queue α
  | .pull wakes => sync_priority_queue.make_optional (sync_priority_queue.pull comp wakes s)
  | .pull_until tp wakes => sync_priority_queue.pull_until comp tp wakes s
  | .pull_for now dura wakes => sync_priority_queue.pull_for comp now dura wakes s
  | .pull_no_wait => sync_priority_queue.pull_no_wait comp s
  | .try_pull owns_lock wakes => sync_priority_queue.try_pull comp owns_lock wakes s
  | .try_pull_no_wait owns_lock => sync_priority_queue.try_pull_no_wait comp owns_lock s

/-- A list of calls made one after the other by one thread: the outcomes in order, and
the final state. -/
def run_all (comp : α → α → Bool) :
    List (PullCall α) → sync_priority_queue α →
      List (Outcome (Option α)) × sync_priority_queue α
  | [], s => ([], s)
  | c :: cs, s =>
    ((c.run comp s).1 :: (run_all comp cs (c.run comp s).2).1,
      (run_all comp cs (c.run comp s).2).2)

/-- The calls that get the mutex: the two `try_` forms with `try_to_lock` succeeding,
and all the others. -/
def locks : PullCall α → Bool
  | .try_pull owns_lock _ => owns_lock
  | .try_pull_no_wait owns_lock => owns_lock
  | _ => true

/-- The timed pulls, `pull_until` and `pull_for`. -/
def timed : PullCall α → Bool
  | .pull_until _ _ => true
  | .pull_for _ _ _ => true
  | _ => false

/-- The blocking `pull()`. -/
def is_pull : PullCall α → Bool
  | .pull _ => true
  | _ => false

/-- The pulls that never wait, `pull_no_wait` and `try_pull_no_wait`. -/
def no_wait : PullCall α → Bool
  | .pull_no_wait => true
  | .try_pull_no_wait _ => true
  | _ => false

end PullCall

/-- The signals among the effects: `notify_one` and `notify_all` on `not_empty_`. -/
def Effect.is_signal {α : Type} : Effect α → Bool
  | .notify_one => true
  | .notify_all => true
  | _ => false

namespace sync_priority_queue

variable {α : Type}

/-- What the other threads have made of the queue once a waiting call has gone
through the given wakeups, one wait after the other. -/
def interfere (comp : α → α → Bool) (ws : List (Wakeup α)) (s : sync_priority_queue α) :
    sync_priority_queue α :=
  ws.foldl (fun t w => wait comp w t) s

/-- The runs of wakeups none of which ends the wait of `pull_until`: each one reports
no timeout and hands back a store that is still empty and a queue that is still
open. -/
def idle (comp : α → α → Bool) : List (Wakeup α) → sync_priority_queue α → Bool
  | [], _ => true
  | w :: ws, s =>
    decide (w.status = cv_status.no_timeout) && (wait comp w s).data_.empty
      && !(wait comp w s).closed && idle comp ws (wait comp w s)

end sync_priority_queue

/-- The wakeups a pull call has at its disposal; the two calls that never wait have
none. -/
def PullCall.wakes {α : Type} : PullCall α → List (Wakeup α)
  | .pull wakes => wakes
  | .pull_until _ wakes => wakes
  | .pull_for _ _ wakes => wakes
  | .pull_no_wait => []
  | .try_pull _ wakes => wakes
  | .try_pull_no_wait _ => []

/-- A call of any operation of the queue: the push family, the pull family, `close`
of the base class, and the destructor. -/
inductive QueueCall (α : Type) where
  | push (x : α)
  | push_move (x : α)
  | try_push (x : α)
  | try_push_move (x : α)
  | pulls (c : PullCall α)
  | close
  | destroy
  deriving DecidableEq, Repr

namespace QueueCall

variable {α : Type}

/-- The state a call leaves behind. -/
def run (comp : α → α → Bool) (s : sync_priority_queue α) :
    QueueCall α → sync_priority_queue α
  | .push x => sync_priority_queue.push comp s x
  | .push_move x => sync_priority_queue.push_move comp s x
  | .try_push x => (sync_priority_queue.try_push comp s x).2
  | .try_push_move x => (sync_priority_queue.try_push_move comp s x).2
  | .pulls c => (c.run comp s).2
  | .close => sync_priority_queue.close s
  | .destroy => sync_priority_queue.destroy s

/-- The state a list of calls, made one after the other, leaves behind. -/
def run_all (comp : α → α → Bool) (cs : List (QueueCall α)) (s : sync_priority_queue α) :
    sync_priority_queue α :=
  cs.foldl (run comp) s

end QueueCall

/-- The ways a pull call can end, `t` being the state the mutex protects when it
ends: absent, raised or still blocked with `t` left as it is, or the result of the
private `pull(lk)` on `t`, whose store is then not empty. -/
def PullShape {α : Type} (comp : α → α → Bool)
    (r : Outcome (Option α) × sync_priority_queue α) (t : sync_priority_queue α) : Prop :=
  r = (Outcome.returned none, t) ∨ r = (Outcome.raised, t) ∨ r = (Outcome.blocked, t) ∨
    (t.data_.empty = false ∧
      r = sync_priority_queue.make_optional (sync_priority_queue.pull_lk comp t))

/-- Two wakeups for the examples that do not end a wait on the initial queue: a
spurious one, and one after another thread has pushed 4 and a third has pulled it. -/
def sample_idle : List (Wakeup Nat) :=
  [⟨[], cv_status.no_timeout⟩, ⟨[Other.push 4, Other.pull], cv_status.no_timeout⟩]

/-- A wakeup for the examples: another thread pushes 6, the wait reports no timeout. -/
def sample_signal : Wakeup Nat := ⟨[Other.push 6], cv_status.no_timeout⟩

/-- A store for the examples: 3, 5 and 4 pushed into the empty store. -/
def sample_store : priority_queue Nat :=
  ((priority_queue.init.push natLess 3).push natLess 5).push natLess 4

/-- An open queue for the examples: 3, 5 and 4 pushed into the initial queue. -/
def sample_queue : sync_priority_queue Nat :=
  sync_priority_queue.push_all natLess sync_priority_queue.init [3, 5, 4]

/-- A closed queue for the examples, holding three items. -/
def sample_closed : sync_priority_queue Nat := sync_priority_queue.close sample_queue

/-- A closed queue for the examples, with an empty store. -/
def sample_closed_empty : sync_priority_queue Nat :=
  sync_priority_queue.close sync_priority_queue.init

/-- A wakeup for the examples: another thread pushes 4, the wait reports a timeout. -/
def sample_timeout : Wakeup Nat := ⟨[Other.push 4], cv_status.timeout⟩

/-- Three pulls for the examples, none of which waits on a store that is not empty. -/
def sample_calls : List (PullCall Nat) :=
  [PullCall.pull_until 0 [], PullCall.pull_no_wait, PullCall.try_pull_no_wait true]

/-- Three pulls for the examples, timed or blocking. -/
def sample_blocking_calls : List (PullCall Nat) :=
  [PullCall.pull_until 3 [], PullCall.pull [], PullCall.pull_for 0 1 []]

section order

variable {α : Type} {comp : α → α → Bool}

theorem StrictWeakOrder.asymm (hc : StrictWeakOrder comp) {a b : α} (h : comp a b = true) :
    comp b a = false := by
  cases hba : comp b a with
  | false => rfl
  | true =>
    have := hc.trans a b a h hba
    rw [hc.irrefl a] at this
    exact (Bool.false_ne_true this).elim

/-- "Not below" is transitive for a strict weak ordering. -/
theorem StrictWeakOrder.not_trans (hc : StrictWeakOrder comp) {a b c : α}
    (hab : comp a b = false) (hbc : comp b c = false) : comp a c = false := by
  cases hac : comp a c with
  | false => rfl
  | true =>
    have hba : comp b a = false := by
      cases hba : comp b a with
      | false => rfl
      | true => rw [hc.trans b a c hba hac] at hbc; exact (Bool.false_ne_true hbc.symm).elim
    have hcb : comp c b = false := by
      cases hcb : comp c b with
      | false => rfl
      | true => rw [hc.trans a c b hac hcb] at hab; exact (Bool.false_ne_true hab.symm).elim
    have := (hc.incomp_trans a b c hab hba hbc hcb).1
    rw [hac] at this
    exact (Bool.false_ne_true this.symm).elim

theorem StrictWeakOrder.not_of_lt_of_not (hc : StrictWeakOrder comp) {a b c : α}
    (hab : comp a b = true) (hac : comp a c = false) : comp b c = false :=
  hc.not_trans (hc.asymm hab) hac

end order

section push_heap_proofs

variable {α : Type} {comp : α → α → Bool}

/-- Writing the value into the hole gives a heap once the parent of the hole is not
below the value. -/
theorem HoleInv.fill {a : List α} {h : Nat} {v : α} (inv : HoleInv comp a h v)
    (htop : h = 0 ∨ ∀ x, a[(h - 1) / 2]? = some x → comp x v = false) :
    IsHeap comp (a.set h v) := by
  intro i x y hi hx hy
  rw [List.getElem?_set] at hx hy
  by_cases hih : h = i
  · subst hih
    have hp : ¬ h = (h - 1) / 2 := by omega
    rw [if_neg hp] at hx
    rw [if_pos rfl, if_pos inv.inside] at hy
    cases htop with
    | inl h0 => omega
    | inr htop =>
      have := htop x hx
      simp only [Option.some.injEq] at hy
      rw [← hy]; exact this
  · rw [if_neg hih] at hy
    by_cases hpar : h = (i - 1) / 2
    · rw [if_pos hpar, if_pos inv.inside] at hx
      simp only [Option.some.injEq] at hx
      rw [← hx]
      exact inv.below i y hi hpar.symm hy
    · rw [if_neg hpar] at hx
      exact inv.apart i x y hi (fun e => hih e.symm) hx hy

/-- One iteration of the loop of `std::__push_heap` keeps the invariant. -/
theorem HoleInv.up (hc : StrictWeakOrder comp) {a : List α} {h : Nat} {v p : α}
    (inv : HoleInv comp a h v) (hpos : 0 < h) (hp : a[(h - 1) / 2]? = some p)
    (hlt : comp p v = true) : HoleInv comp (a.set h p) ((h - 1) / 2) v := by
  have hne : ¬ h = (h - 1) / 2 := by omega
  refine ⟨?_, ?_, ?_, ?_⟩
  · rw [List.length_set]; have := inv.inside; omega
  · intro i x y hi hik hx hy
    rw [List.getElem?_set] at hx hy
    by_cases hih : h = i
    · subst hih
      rw [if_neg hne] at hx
      rw [if_pos rfl, if_pos inv.inside] at hy
      simp only [Option.some.injEq] at hy
      rw [hp] at hx
      simp only [Option.some.injEq] at hx
      rw [← hx, ← hy]
      exact hc.irrefl p
    · rw [if_neg hih] at hy
      by_cases hpar : h = (i - 1) / 2
      · rw [if_pos hpar, if_pos inv.inside] at hx
        simp only [Option.some.injEq] at hx
        rw [← hx]
        exact inv.above i p y hi hpar.symm hpos hp hy
      · rw [if_neg hpar] at hx
        exact inv.apart i x y hi (fun e => hih e.symm) hx hy
  · intro c y hcpos hck hy
    rw [List.getElem?_set] at hy
    by_cases hch : h = c
    · rw [if_pos hch, if_pos inv.inside] at hy
      simp only [Option.some.injEq] at hy
      rw [← hy]
      exact hc.asymm hlt
    · rw [if_neg hch] at hy
      have h1 : comp p y = false := by
        apply inv.apart c p y hcpos (fun e => hch e.symm) _ hy
        rw [hck]; exact hp
      exact hc.not_of_lt_of_not hlt h1
  · intro c x y hcpos hck hkpos hx hy
    rw [List.getElem?_set] at hx hy
    have hne2 : ¬ h = ((h - 1) / 2 - 1) / 2 := by omega
    rw [if_neg hne2] at hx
    have hxp : comp x p = false :=
      inv.apart ((h - 1) / 2) x p hkpos (by omega) hx hp
    by_cases hch : h = c
    · rw [if_pos hch, if_pos inv.inside] at hy
      simp only [Option.some.injEq] at hy
      rw [← hy]; exact hxp
    · rw [if_neg hch] at hy
      have h1 : comp p y = false := by
        apply inv.apart c p y hcpos (fun e => hch e.symm) _ hy
        rw [hck]; exact hp
      exact hc.not_trans hxp h1

/-- The loop of `std::__push_heap` with top index 0, started on a state that satisfies
its invariant and given at least `h` iterations, ends on a heap. -/
theorem push_heap_loop_isHeap (hc : StrictWeakOrder comp) (v : α) :
    ∀ (fuel : Nat) (a : List α) (h : Nat), h ≤ fuel → HoleInv comp a h v →
      IsHeap comp (std.push_heap_loop comp v 0 fuel a h) := by
  intro fuel
  induction fuel with
  | zero =>
    intro a h hle inv
    exact inv.fill (Or.inl (by omega))
  | succ fuel ih =>
    intro a h hle inv
    have hplt : (h - 1) / 2 < a.length := by have := inv.inside; omega
    have hp : a[(h - 1) / 2]? = some (a[(h - 1) / 2]) := List.getElem?_eq_getElem hplt
    have hgd : a.getD ((h - 1) / 2) v = a[(h - 1) / 2] := by
      rw [List.getD_eq_getElem?_getD, hp]; rfl
    simp only [std.push_heap_loop, hgd]
    split
    · rename_i hcond
      exact ih _ _ (by omega) (inv.up hc hcond.1 hp hcond.2)
    · rename_i hcond
      apply inv.fill
      by_cases h0 : h = 0
      · exact Or.inl h0
      · right
        intro x hx
        rw [hp] at hx
        simp only [Option.some.injEq] at hx
        rw [← hx]
        cases hcv : comp a[(h - 1) / 2] v with
        | false => rfl
        | true => exact absurd ⟨by omega, hcv⟩ hcond

end push_heap_proofs

section perm_proofs

variable {α : Type}

theorem cons_set_perm_of_getElem? (v x : α) :
    ∀ (l : List α) (p : Nat), l[p]? = some x → List.Perm (x :: l.set p v) (v :: l) := by
  intro l
  induction l with
  | nil => intro p hp; simp at hp
  | cons w ws ih =>
    intro p hp
    cases p with
    | zero =>
      simp only [List.getElem?_cons_zero, Option.some.injEq] at hp
      subst hp
      exact List.Perm.swap _ _ _
    | succ k =>
      simp only [List.getElem?_cons_succ] at hp
      simp only [List.set_cons_succ]
      exact (List.Perm.swap _ _ _).trans (((ih k hp).cons w).trans (List.Perm.swap _ _ _))

theorem cons_set_perm_cons_set (u w : α) :
    ∀ (l : List α) (h : Nat), h < l.length →
      List.Perm (u :: l.set h w) (w :: l.set h u) := by
  intro l
  induction l with
  | nil => intro h hh; simp at hh
  | cons t ts ih =>
    intro h hh
    cases h with
    | zero => exact List.Perm.swap _ _ _
    | succ k =>
      simp only [List.length_cons, Nat.add_lt_add_iff_right] at hh
      simp only [List.set_cons_succ]
      exact (List.Perm.swap _ _ _).trans (((ih k hh).cons t).trans (List.Perm.swap _ _ _))

/-- Moving the element at `p` into the hole `h` and the value in hand into `p`
permutes the array that has the value in the hole. -/
theorem set_set_perm_of_getElem? (v x : α) :
    ∀ (a : List α) (h p : Nat), h ≠ p → h < a.length → a[p]? = some x →
      List.Perm ((a.set h x).set p v) (a.set h v) := by
  intro a
  induction a with
  | nil => intro h p _ hh; simp at hh
  | cons z zs ih =>
    intro h p hne hh hp
    cases h with
    | zero =>
      cases p with
      | zero => exact absurd rfl hne
      | succ k =>
        simp only [List.getElem?_cons_succ] at hp
        simp only [List.set_cons_zero, List.set_cons_succ]
        exact cons_set_perm_of_getElem? v x zs k hp
    | succ j =>
      simp only [List.length_cons, Nat.add_lt_add_iff_right] at hh
      cases p with
      | zero =>
        simp only [List.getElem?_cons_zero, Option.some.injEq] at hp
        subst hp
        simp only [List.set_cons_zero, List.set_cons_succ]
        exact cons_set_perm_cons_set v z zs j hh
      | succ k =>
        simp only [List.getElem?_cons_succ] at hp
        simp only [List.set_cons_succ]
        exact (ih j k (fun e => hne (by rw [e])) hh hp).cons z

variable {comp : α → α → Bool}

theorem push_heap_loop_length (v : α) (top : Nat) :
    ∀ (fuel : Nat) (a : List α) (h : Nat),
      (std.push_heap_loop comp v top fuel a h).length = a.length := by
  intro fuel
  induction fuel with
  | zero => intro a h; simp [std.push_heap_loop]
  | succ fuel ih =>
    intro a h
    simp only [std.push_heap_loop]
    split
    · rw [ih, List.length_set]
    · rw [List.length_set]

/-- The loop of `std::__push_heap` only rearranges: its result is a permutation of
the array with the value in the hole. -/
theorem push_heap_loop_perm (v : α) (top : Nat) :
    ∀ (fuel : Nat) (a : List α) (h : Nat), h < a.length →
      List.Perm (std.push_heap_loop comp v top fuel a h) (a.set h v) := by
  intro fuel
  induction fuel with
  | zero => intro a h _; exact List.Perm.refl _
  | succ fuel ih =>
    intro a h hh
    have hplt : (h - 1) / 2 < a.length := by omega
    have hp : a[(h - 1) / 2]? = some (a[(h - 1) / 2]) := List.getElem?_eq_getElem hplt
    have hgd : a.getD ((h - 1) / 2) v = a[(h - 1) / 2] := by
      rw [List.getD_eq_getElem?_getD, hp]; rfl
    simp only [std.push_heap_loop, hgd]
    split
    · rename_i hcond
      refine (ih _ _ (by rw [List.length_set]; exact hplt)).trans ?_
      exact set_set_perm_of_getElem? v _ a h _ (by omega) hh hp
    · exact List.Perm.refl _

/-- The loop of `std::__push_heap` does not look beyond the hole: what follows the
range it works on is left as it is. -/
theorem push_heap_loop_append (v : α) (top : Nat) (r : List α) :
    ∀ (fuel : Nat) (l : List α) (h : Nat), h < l.length →
      std.push_heap_loop comp v top fuel (l ++ r) h
        = std.push_heap_loop comp v top fuel l h ++ r := by
  intro fuel
  induction fuel with
  | zero => intro l h hh; simp [std.push_heap_loop, List.set_append_left _ _ hh]
  | succ fuel ih =>
    intro l h hh
    have hplt : (h - 1) / 2 < l.length := by omega
    have hgd : (l ++ r).getD ((h - 1) / 2) v = l.getD ((h - 1) / 2) v := by
      simp only [List.getD_eq_getElem?_getD, List.getElem?_append_left hplt]
    simp only [std.push_heap_loop, hgd, List.set_append_left _ _ hh]
    split
    · exact ih _ _ (by rw [List.length_set]; exact hplt)
    · rfl

end perm_proofs

section adjust_heap_proofs

variable {α : Type} {comp : α → α → Bool}

/-- A hole without children in range satisfies the invariant of `std::__push_heap`
as soon as the rest of the array is in heap order. -/
theorem HoleInv.of_leaf {a : List α} {h : Nat} (v : α) (hin : h < a.length)
    (hapart : ∀ i x y, 0 < i → i ≠ h → a[(i - 1) / 2]? = some x → a[i]? = some y →
      comp x y = false)
    (hleaf : ∀ i, 0 < i → (i - 1) / 2 = h → a.length ≤ i) : HoleInv comp a h v := by
  refine ⟨hin, hapart, ?_, ?_⟩
  · intro c y hc hpar hy
    rw [List.getElem?_eq_none (hleaf c hc hpar)] at hy
    cases hy
  · intro c x y hc hpar _ _ hy
    rw [List.getElem?_eq_none (hleaf c hc hpar)] at hy
    cases hy

/-- Moving up into position `k` a child of `k` that dominates the children of `k`
keeps a heap a heap. -/
theorem IsHeap.sink (hc : StrictWeakOrder comp) {a : List α} {k m : Nat} {x : α}
    (heap : IsHeap comp a) (hm : a[m]? = some x) (hpos : 0 < m) (hpar : (m - 1) / 2 = k)
    (hdom : ∀ c y, 0 < c → (c - 1) / 2 = k → a[c]? = some y → comp x y = false) :
    IsHeap comp (a.set k x) := by
  have hmlt : m < a.length := by
    rcases List.getElem?_eq_some_iff.mp hm with ⟨h, _⟩; exact h
  have hklt : k < a.length := by omega
  have hk : a[k]? = some a[k] := List.getElem?_eq_getElem hklt
  have hkx : comp a[k] x = false := heap m a[k] x hpos (by rw [hpar]; exact hk) hm
  intro i x' y hi hx hy
  rw [List.getElem?_set] at hx hy
  by_cases hik : k = i
  · subst hik
    have hne : ¬ k = (k - 1) / 2 := by omega
    rw [if_neg hne] at hx
    rw [if_pos rfl, if_pos hklt] at hy
    simp only [Option.some.injEq] at hy
    rw [← hy]
    exact hc.not_trans (heap k x' a[k] hi hx hk) hkx
  · rw [if_neg hik] at hy
    by_cases hp : k = (i - 1) / 2
    · rw [if_pos hp, if_pos hklt] at hx
      simp only [Option.some.injEq] at hx
      rw [← hx]
      exact hdom i y hi hp.symm hy
    · rw [if_neg hp] at hx
      exact heap i x' y hi hx hy

/-- The first loop of `std::__adjust_heap`, on a heap of length `len` and with enough
iterations: the array stays a heap of the same length, the hole ends on a node that
does not have two children, and nothing but a rearrangement has happened. -/
theorem adjust_heap_loop_spec (comp : α → α → Bool) (len : Nat) (v : α) :
    ∀ (fuel : Nat) (a : List α) (sc : Nat), a.length = len → sc < len → len ≤ fuel + sc →
      (std.adjust_heap_loop comp len v fuel a sc).1.length = len ∧
      (std.adjust_heap_loop comp len v fuel a sc).2 < len ∧
      ¬ (std.adjust_heap_loop comp len v fuel a sc).2 < (len - 1) / 2 ∧
      (StrictWeakOrder comp → IsHeap comp a →
        IsHeap comp (std.adjust_heap_loop comp len v fuel a sc).1) ∧
      List.Perm ((std.adjust_heap_loop comp len v fuel a sc).1.set
        (std.adjust_heap_loop comp len v fuel a sc).2 v) (a.set sc v) := by
  intro fuel
  induction fuel with
  | zero => intro a sc _ h1 h2; omega
  | succ fuel ih =>
    intro a sc hlen hsc hfuel
    by_cases hcond : sc < (len - 1) / 2
    · have h2 : 2 * (sc + 1) < a.length := by omega
      have h1 : 2 * (sc + 1) - 1 < a.length := by omega
      have e2 : a[2 * (sc + 1)]? = some a[2 * (sc + 1)] := List.getElem?_eq_getElem h2
      have e1 : a[2 * (sc + 1) - 1]? = some a[2 * (sc + 1) - 1] := List.getElem?_eq_getElem h1
      have g2 : a.getD (2 * (sc + 1)) v = a[2 * (sc + 1)] := by
        rw [List.getD_eq_getElem?_getD, e2]; rfl
      have g1 : a.getD (2 * (sc + 1) - 1) v = a[2 * (sc + 1) - 1] := by
        rw [List.getD_eq_getElem?_getD, e1]; rfl
      have hchild : ∀ c, 0 < c → (c - 1) / 2 = sc → c = 2 * (sc + 1) - 1 ∨ c = 2 * (sc + 1) := by
        intro c _ _; omega
      simp only [std.adjust_heap_loop, if_pos hcond, g2, g1]
      by_cases hcmp : comp a[2 * (sc + 1)] a[2 * (sc + 1) - 1] = true
      · simp only [if_pos hcmp, g1]
        have heap' : StrictWeakOrder comp → IsHeap comp a →
            IsHeap comp (a.set sc a[2 * (sc + 1) - 1]) := by
          intro hc heap
          apply heap.sink hc e1 (by omega) (by omega)
          intro c y hcpos hcpar hy
          rcases hchild c hcpos hcpar with e | e
          · subst e; rw [e1] at hy; simp only [Option.some.injEq] at hy
            rw [← hy]; exact hc.irrefl _
          · subst e; rw [e2] at hy; simp only [Option.some.injEq] at hy
            rw [← hy]; exact hc.asymm hcmp
        obtain ⟨r1, r2, r3, r4, r5⟩ := ih (a.set sc a[2 * (sc + 1) - 1]) (2 * (sc + 1) - 1)
          (by rw [List.length_set]; exact hlen) (by omega) (by omega)
        exact ⟨r1, r2, r3, fun hc heap => r4 hc (heap' hc heap), r5.trans
          (set_set_perm_of_getElem? v _ a sc _ (by omega) (by omega) e1)⟩
      · simp only [if_neg hcmp, g2]
        have heap' : StrictWeakOrder comp → IsHeap comp a →
            IsHeap comp (a.set sc a[2 * (sc + 1)]) := by
          intro hc heap
          apply heap.sink hc e2 (by omega) (by omega)
          intro c y hcpos hcpar hy
          rcases hchild c hcpos hcpar with e | e
          · subst e; rw [e1] at hy; simp only [Option.some.injEq] at hy
            rw [← hy]
            cases hv : comp a[2 * (sc + 1)] a[2 * (sc + 1) - 1] with
            | false => rfl
            | true => exact absurd hv hcmp
          · subst e; rw [e2] at hy; simp only [Option.some.injEq] at hy
            rw [← hy]; exact hc.irrefl _
        obtain ⟨r1, r2, r3, r4, r5⟩ := ih (a.set sc a[2 * (sc + 1)]) (2 * (sc + 1))
          (by rw [List.length_set]; exact hlen) (by omega) (by omega)
        exact ⟨r1, r2, r3, fun hc heap => r4 hc (heap' hc heap), r5.trans
          (set_set_perm_of_getElem? v _ a sc _ (by omega) (by omega) e2)⟩
    · simp only [std.adjust_heap_loop, if_neg hcond]
      exact ⟨hlen, hsc, hcond, fun _ heap => heap, List.Perm.refl _⟩

/-- The first loop of `std::__adjust_heap` stays inside the first `len` positions. -/
theorem adjust_heap_loop_append (comp : α → α → Bool) (len : Nat) (v : α) (r : List α) :
    ∀ (fuel : Nat) (l : List α) (sc : Nat), len ≤ l.length →
      std.adjust_heap_loop comp len v fuel (l ++ r) sc
        = ((std.adjust_heap_loop comp len v fuel l sc).1 ++ r,
           (std.adjust_heap_loop comp len v fuel l sc).2) := by
  intro fuel
  induction fuel with
  | zero => intro l sc _; rfl
  | succ fuel ih =>
    intro l sc hlen
    by_cases hcond : sc < (len - 1) / 2
    · have h2 : 2 * (sc + 1) < l.length := by omega
      have h1 : 2 * (sc + 1) - 1 < l.length := by omega
      have h0 : sc < l.length := by omega
      have g2 : (l ++ r).getD (2 * (sc + 1)) v = l.getD (2 * (sc + 1)) v := by
        simp only [List.getD_eq_getElem?_getD, List.getElem?_append_left h2]
      have g1 : (l ++ r).getD (2 * (sc + 1) - 1) v = l.getD (2 * (sc + 1) - 1) v := by
        simp only [List.getD_eq_getElem?_getD, List.getElem?_append_left h1]
      simp only [std.adjust_heap_loop, if_pos hcond, g2, g1]
      split
      · rw [g1, List.set_append_left _ _ h0]
        exact ih _ _ (by rw [List.length_set]; exact hlen)
      · rw [g2, List.set_append_left _ _ h0]
        exact ih _ _ (by rw [List.length_set]; exact hlen)
    · simp only [std.adjust_heap_loop, if_neg hcond]

end adjust_heap_proofs

section heap_algorithms

variable {α : Type} {comp : α → α → Bool}

theorem IsHeap.hole_of_leaf {a : List α} {h : Nat} (v : α) (heap : IsHeap comp a)
    (hin : h < a.length) (hleaf : ∀ i, 0 < i → (i - 1) / 2 = h → a.length ≤ i) :
    HoleInv comp a h v :=
  HoleInv.of_leaf v hin (fun i x y hi _ hx hy => heap i x y hi hx hy) hleaf

/-- The call of `std::__adjust_heap` from the root of a heap `l`, over its whole length: the
result is a heap and a permutation of `l` with `v` in place of the root. -/
theorem adjust_heap_spec (comp : α → α → Bool) (l : List α) (v : α) (hpos : 0 < l.length) :
    (StrictWeakOrder comp → IsHeap comp l →
      IsHeap comp (std.adjust_heap comp l 0 l.length v)) ∧
    List.Perm (std.adjust_heap comp l 0 l.length v) (l.set 0 v) := by
  obtain ⟨r1, r2, r3, r4, r5⟩ :=
    adjust_heap_loop_spec comp l.length v l.length l 0 rfl hpos (by omega)
  simp only [std.adjust_heap, std.push_heap_at]
  generalize std.adjust_heap_loop comp l.length v l.length l 0 = r at r1 r2 r3 r4 r5 ⊢
  obtain ⟨b, k⟩ := r
  simp only at r1 r2 r3 r4 r5 ⊢
  split
  · rename_i hcond
    have hk : 2 * (k + 1) - 1 < b.length := by omega
    have ek : b[2 * (k + 1) - 1]? = some b[2 * (k + 1) - 1] := List.getElem?_eq_getElem hk
    have gk : b.getD (2 * (k + 1) - 1) v = b[2 * (k + 1) - 1] := by
      rw [List.getD_eq_getElem?_getD, ek]; rfl
    rw [gk]
    have heap' : StrictWeakOrder comp → IsHeap comp l →
        IsHeap comp (b.set k b[2 * (k + 1) - 1]) := by
      intro hc heap
      apply (r4 hc heap).sink hc ek (by omega) (by omega)
      intro c y hcpos hcpar hy
      have hclt : c < b.length := by
        rcases List.getElem?_eq_some_iff.mp hy with ⟨h, _⟩; exact h
      have : c = 2 * (k + 1) - 1 := by omega
      subst this
      rw [ek] at hy; simp only [Option.some.injEq] at hy
      rw [← hy]; exact hc.irrefl _
    have inv : StrictWeakOrder comp → IsHeap comp l →
        HoleInv comp (b.set k b[2 * (k + 1) - 1]) (2 * (k + 1) - 1) v :=
      fun hc heap => (heap' hc heap).hole_of_leaf v (by rw [List.length_set]; exact hk)
        (by intro i _ _; rw [List.length_set]; omega)
    refine ⟨fun hc heap => push_heap_loop_isHeap hc v _ _ _ (Nat.le_refl _) (inv hc heap), ?_⟩
    refine (push_heap_loop_perm v 0 _ _ _ (by rw [List.length_set]; exact hk)).trans ?_
    exact (set_set_perm_of_getElem? v _ b k _ (by omega) (by omega) ek).trans r5
  · rename_i hcond
    have inv : StrictWeakOrder comp → IsHeap comp l → HoleInv comp b k v :=
      fun hc heap => (r4 hc heap).hole_of_leaf v (by omega) (by intro i _ _; omega)
    refine ⟨fun hc heap => push_heap_loop_isHeap hc v _ _ _ (Nat.le_refl _) (inv hc heap), ?_⟩
    exact (push_heap_loop_perm v 0 _ _ _ (by omega)).trans r5

/-- The call of `std::__adjust_heap` over the first `l.length` positions leaves the positions
after them alone. -/
theorem adjust_heap_append (l r : List α) (v : α) (hpos : 0 < l.length) :
    std.adjust_heap comp (l ++ r) 0 l.length v = std.adjust_heap comp l 0 l.length v ++ r := by
  have hloop := adjust_heap_loop_append comp l.length v r l.length l 0 (Nat.le_refl _)
  have hlen : ∀ fuel (a : List α) sc, a.length = l.length → sc < l.length →
      (std.adjust_heap_loop comp l.length v fuel a sc).1.length = l.length ∧
      (std.adjust_heap_loop comp l.length v fuel a sc).2 < l.length := by
    intro fuel
    induction fuel with
    | zero => intro a sc h1 h2; exact ⟨h1, h2⟩
    | succ fuel ih =>
      intro a sc h1 h2
      simp only [std.adjust_heap_loop]
      split
      · split
        · exact ih _ _ (by rw [List.length_set]; exact h1) (by omega)
        · exact ih _ _ (by rw [List.length_set]; exact h1) (by omega)
      · exact ⟨h1, h2⟩
  obtain ⟨r1, r2⟩ := hlen l.length l 0 rfl hpos
  simp only [std.adjust_heap, std.push_heap_at, hloop]
  generalize std.adjust_heap_loop comp l.length v l.length l 0 = res at r1 r2 ⊢
  obtain ⟨b, k⟩ := res
  simp only at r1 r2 ⊢
  split
  · rename_i hcond
    have hk : 2 * (k + 1) - 1 < b.length := by omega
    have gk : (b ++ r).getD (2 * (k + 1) - 1) v = b.getD (2 * (k + 1) - 1) v := by
      simp only [List.getD_eq_getElem?_getD, List.getElem?_append_left hk]
    rw [gk, List.set_append_left _ _ (by omega)]
    exact push_heap_loop_append v 0 r _ _ _ (by rw [List.length_set]; exact hk)
  · exact push_heap_loop_append v 0 r _ _ _ (by omega)

theorem IsHeap.of_append {l r : List α} (heap : IsHeap comp (l ++ r)) : IsHeap comp l := by
  intro i x y hi hx hy
  have hilt : i < l.length := by
    rcases List.getElem?_eq_some_iff.mp hy with ⟨h, _⟩; exact h
  have hplt : (i - 1) / 2 < l.length := by omega
  apply heap i x y hi
  · rw [List.getElem?_append_left hplt]; exact hx
  · rw [List.getElem?_append_left hilt]; exact hy

theorem isHeap_nil : IsHeap comp ([] : List α) := by
  intro i x y _ _ hy
  simp at hy

/-- In a heap no element is above the front element. -/
theorem IsHeap.front_max (hc : StrictWeakOrder comp) {a : List α} (heap : IsHeap comp a)
    {front : α} (h0 : a[0]? = some front) :
    ∀ (i : Nat) (y : α), a[i]? = some y → comp front y = false := by
  intro i
  induction i using Nat.strong_induction_on with
  | _ i ih =>
    intro y hy
    by_cases hi : i = 0
    · subst hi
      rw [h0] at hy; simp only [Option.some.injEq] at hy
      rw [← hy]; exact hc.irrefl _
    · have hilt : i < a.length := by
        rcases List.getElem?_eq_some_iff.mp hy with ⟨h, _⟩; exact h
      have hplt : (i - 1) / 2 < a.length := by omega
      have hp : a[(i - 1) / 2]? = some a[(i - 1) / 2] := List.getElem?_eq_getElem hplt
      exact hc.not_trans (ih _ (by omega) _ hp) (heap i _ y (by omega) hp hy)

/-- The call of `std::push_heap` after `push_back` on a heap: a heap again, holding the old
elements and the new one. -/
theorem push_heap_spec (comp : α → α → Bool) (l : List α) (x : α) :
    (StrictWeakOrder comp → IsHeap comp l → IsHeap comp (std.push_heap comp (l ++ [x]))) ∧
    List.Perm (std.push_heap comp (l ++ [x])) (l ++ [x]) := by
  have hlen : (l ++ [x]).length - 1 = l.length := by simp
  have hin : l.length < (l ++ [x]).length := by simp
  simp only [std.push_heap, List.getLast?_concat, std.push_heap_at, hlen]
  have inv : IsHeap comp l → HoleInv comp (l ++ [x]) l.length x := by
    intro heap
    apply HoleInv.of_leaf x hin
    · intro i a b hi hne ha hb
      have hilt : i < (l ++ [x]).length := by
        rcases List.getElem?_eq_some_iff.mp hb with ⟨h, _⟩; exact h
      have hilt' : i < l.length := by
        rw [List.length_append, List.length_singleton] at hilt; omega
      have hplt : (i - 1) / 2 < l.length := by omega
      rw [List.getElem?_append_left hplt] at ha
      rw [List.getElem?_append_left hilt'] at hb
      exact heap i a b hi ha hb
    · intro i _ hpar
      rw [List.length_append, List.length_singleton]; omega
  refine ⟨fun hc heap => push_heap_loop_isHeap hc x _ _ _ (Nat.le_refl _) (inv heap), ?_⟩
  refine (push_heap_loop_perm x 0 _ _ _ hin).trans ?_
  rw [List.set_append_right _ _ (Nat.le_refl _)]
  simp

/-- The call of `std::pop_heap` on a non-empty heap: the front element ends in the last position
and what is before it is a heap of the other elements. -/
theorem pop_heap_spec (comp : α → α → Bool) (front : α) (rest : List α) :
    ∃ H, std.pop_heap comp (front :: rest) = H ++ [front] ∧
      (StrictWeakOrder comp → IsHeap comp (front :: rest) → IsHeap comp H) ∧
      List.Perm H rest := by
  rcases List.eq_nil_or_concat rest with hnil | ⟨L, b, hrest⟩
  · subst hnil
    exact ⟨[], by simp [std.pop_heap], fun _ _ => isHeap_nil, List.Perm.refl _⟩
  · rw [List.concat_eq_append] at hrest
    subst hrest
    have hlast : (front :: (L ++ [b])).getLast? = some b := by
      rw [← List.cons_append, List.getLast?_concat]
    have hlen : (front :: (L ++ [b])).length - 1 = (front :: L).length := by simp
    have hgt : 1 < (front :: (L ++ [b])).length := by simp
    have hset : (front :: (L ++ [b])).set (front :: L).length front = (front :: L) ++ [front] := by
      rw [← List.cons_append, List.set_append_right _ _ (Nat.le_refl _)]
      simp
    have heapL : IsHeap comp (front :: (L ++ [b])) → IsHeap comp (front :: L) := by
      intro heap
      apply IsHeap.of_append (r := [b])
      rw [List.cons_append]; exact heap
    obtain ⟨h1, h2⟩ := adjust_heap_spec comp (front :: L) b (by simp)
    refine ⟨std.adjust_heap comp (front :: L) 0 (front :: L).length b, ?_,
      fun hc heap => h1 hc (heapL heap), ?_⟩
    · simp only [std.pop_heap, List.head?_cons, hlast, hlen, if_pos hgt, hset]
      exact adjust_heap_append (front :: L) [front] b (by simp)
    · refine h2.trans ?_
      rw [List.set_cons_zero]
      exact (List.perm_append_singleton b L).symm

end heap_algorithms

section iteration_bounds

variable {α : Type}

/-- The loop of `std::__push_heap` never runs out of iterations: with at least
`h` of them the result does not depend on their number. -/
theorem push_heap_loop_fuel (comp : α → α → Bool) (v : α) (top : Nat) :
    ∀ (f g : Nat) (a : List α) (h : Nat), h ≤ f → h ≤ g →
      std.push_heap_loop comp v top f a h = std.push_heap_loop comp v top g a h := by
  intro f
  induction f with
  | zero =>
    intro g a h hf _
    have h0 : h = 0 := by omega
    subst h0
    cases g with
    | zero => rfl
    | succ g => simp [std.push_heap_loop]
  | succ f ih =>
    intro g a h hf hg
    cases g with
    | zero =>
      have h0 : h = 0 := by omega
      subst h0
      simp [std.push_heap_loop]
    | succ g =>
      simp only [std.push_heap_loop]
      split
      · rename_i hcond
        exact ih g _ _ (by omega) (by omega)
      · rfl

/-- The first loop of `std::__adjust_heap` never runs out of iterations either: `len`
of them, started anywhere, are as good as any larger number. -/
theorem adjust_heap_loop_fuel (comp : α → α → Bool) (len : Nat) (v : α) :
    ∀ (f g : Nat) (a : List α) (sc : Nat), len ≤ f + sc → len ≤ g + sc →
      std.adjust_heap_loop comp len v f a sc = std.adjust_heap_loop comp len v g a sc := by
  intro f
  induction f with
  | zero =>
    intro g a sc hf _
    cases g with
    | zero => rfl
    | succ g =>
      have : ¬ sc < (len - 1) / 2 := by omega
      simp [std.adjust_heap_loop, this]
  | succ f ih =>
    intro g a sc hf hg
    cases g with
    | zero =>
      have : ¬ sc < (len - 1) / 2 := by omega
      simp [std.adjust_heap_loop, this]
    | succ g =>
      simp only [std.adjust_heap_loop]
      split
      · split
        · exact ih g _ _ (by omega) (by omega)
        · exact ih g _ _ (by omega) (by omega)
      · rfl

end iteration_bounds

section store_proofs

variable {α : Type} {comp : α → α → Bool}

theorem natLess_strictWeakOrder : StrictWeakOrder natLess := by
  refine ⟨?_, ?_, ?_⟩
  · intro a; simp [natLess]
  · intro a b c; simp only [natLess, decide_eq_true_eq]; omega
  · intro a b c; simp only [natLess, decide_eq_false_iff_not]; omega

theorem priority_queue.pull_nil :
    priority_queue.pull comp (⟨[]⟩ : priority_queue α) = Outcome.undefined := rfl

/-- The store's `pull` on a non-empty vector returns the front element and keeps a
rearrangement of the others, in heap order when the vector was. -/
theorem priority_queue.pull_cons (comp : α → α → Bool) (front : α) (rest : List α) :
    ∃ H, priority_queue.pull comp ⟨front :: rest⟩ = Outcome.returned (front, ⟨H⟩) ∧
      (StrictWeakOrder comp → IsHeap comp (front :: rest) → IsHeap comp H) ∧
      List.Perm H rest := by
  obtain ⟨H, h1, h2, h3⟩ := pop_heap_spec comp front rest
  refine ⟨H, ?_, h2, h3⟩
  simp only [priority_queue.pull, h1, List.getLast?_concat, List.dropLast_concat]

theorem priority_queue.push_perm (q : priority_queue α) (x : α) :
    List.Perm (q.push comp x)._elements (x :: q._elements) :=
  (push_heap_spec comp q._elements x).2.trans (List.perm_append_singleton x _)

theorem priority_queue.pull_perm {q q' : priority_queue α} {m : α}
    (h : q.pull comp = Outcome.returned (m, q')) :
    List.Perm q._elements (m :: q'._elements) := by
  obtain ⟨l⟩ := q
  cases l with
  | nil => rw [priority_queue.pull_nil] at h; cases h
  | cons front rest =>
    obtain ⟨H, h1, _, h3⟩ := priority_queue.pull_cons comp front rest
    rw [h1] at h
    simp only [Outcome.returned.injEq, Prod.mk.injEq] at h
    obtain ⟨hm, hq⟩ := h
    subst hm; subst hq
    exact (h3.cons front).symm

/-- Every store that `push` and `pull` produce from the empty store is in heap
order. -/
theorem priority_queue.Reachable.isHeap (hc : StrictWeakOrder comp)
    {q : priority_queue α} (hr : q.Reachable comp) : IsHeap comp q._elements := by
  induction hr with
  | init => exact isHeap_nil
  | push x _ ih => exact (push_heap_spec comp _ x).1 hc ih
  | @pull q q' m _ hp ih =>
    obtain ⟨l⟩ := q
    cases l with
    | nil => rw [priority_queue.pull_nil] at hp; cases hp
    | cons front rest =>
      obtain ⟨H, h1, h2, _⟩ := priority_queue.pull_cons comp front rest
      rw [h1] at hp
      simp only [Outcome.returned.injEq, Prod.mk.injEq] at hp
      obtain ⟨_, hq⟩ := hp
      subst hq
      exact h2 hc ih

/-- On a non-empty vector in heap order the store's `pull` returns an element that
no stored element is above. -/
theorem priority_queue.pull_max (hc : StrictWeakOrder comp) (q : priority_queue α)
    (heap : IsHeap comp q._elements) (hne : q.empty = false) :
    ∃ m q', q.pull comp = Outcome.returned (m, q') ∧ m ∈ q._elements ∧
      (∀ x ∈ q._elements, comp m x = false) ∧ q'.size + 1 = q.size ∧
      IsHeap comp q'._elements ∧ List.Perm q._elements (m :: q'._elements) := by
  obtain ⟨l⟩ := q
  cases l with
  | nil => simp [priority_queue.empty] at hne
  | cons front rest =>
    obtain ⟨H, h1, h2, h3⟩ := priority_queue.pull_cons comp front rest
    refine ⟨front, ⟨H⟩, h1, List.mem_cons_self _ _, ?_, ?_, h2 hc heap, (h3.cons front).symm⟩
    · intro x hx
      obtain ⟨i, hi, hxi⟩ := List.getElem_of_mem hx
      exact heap.front_max hc List.getElem?_cons_zero i x
        (by rw [List.getElem?_eq_getElem hi, hxi])
    · simp only [priority_queue.size, List.length_cons]
      rw [h3.length_eq]

theorem priority_queue.drain_perm (comp : α → α → Bool) :
    ∀ (n : Nat) (q : priority_queue α), n ≤ q.size →
      (priority_queue.drain comp n q).1.length = n ∧
      List.Perm ((priority_queue.drain comp n q).1 ++ (priority_queue.drain comp n q).2._elements)
        q._elements := by
  intro n
  induction n with
  | zero => intro q _; exact ⟨rfl, List.Perm.refl _⟩
  | succ n ih =>
    intro q hn
    obtain ⟨l⟩ := q
    cases l with
    | nil => simp [priority_queue.size] at hn
    | cons front rest =>
      obtain ⟨H, h1, _, h3⟩ := priority_queue.pull_cons comp front rest
      have hH : n ≤ (⟨H⟩ : priority_queue α).size := by
        simp only [priority_queue.size, List.length_cons] at hn ⊢
        rw [h3.length_eq]; omega
      obtain ⟨i1, i2⟩ := ih ⟨H⟩ hH
      simp only [priority_queue.drain, h1]
      refine ⟨by simp [i1], ?_⟩
      exact (i2.trans h3).cons front

/-- Successive pulls from a store in heap order come out in non-increasing order. -/
theorem priority_queue.drain_sorted (hc : StrictWeakOrder comp) :
    ∀ (n : Nat) (q : priority_queue α), IsHeap comp q._elements → n ≤ q.size →
      List.Chain' (fun a b => comp a b = false) (priority_queue.drain comp n q).1 ∧
      IsHeap comp (priority_queue.drain comp n q).2._elements := by
  intro n
  induction n with
  | zero => intro q heap _; exact ⟨List.chain'_nil, heap⟩
  | succ n ih =>
    intro q heap hn
    obtain ⟨l⟩ := q
    cases l with
    | nil => simp [priority_queue.size] at hn
    | cons front rest =>
      obtain ⟨H, h1, h2, h3⟩ := priority_queue.pull_cons comp front rest
      have hH : n ≤ (⟨H⟩ : priority_queue α).size := by
        simp only [priority_queue.size, List.length_cons] at hn ⊢
        rw [h3.length_eq]; omega
      obtain ⟨i1, i2⟩ := ih ⟨H⟩ (h2 hc heap) hH
      obtain ⟨_, p2⟩ := priority_queue.drain_perm comp n ⟨H⟩ hH
      simp only [priority_queue.drain, h1]
      refine ⟨?_, i2⟩
      rw [List.chain'_cons']
      refine ⟨?_, i1⟩
      intro y hy
      have hy1 : y ∈ (priority_queue.drain comp n ⟨H⟩).1 := List.mem_of_mem_head? hy
      have hy2 : y ∈ H := (p2.mem_iff).mp (List.mem_append_left _ hy1)
      have hy3 : y ∈ front :: rest := List.mem_cons_of_mem _ ((h3.mem_iff).mp hy2)
      obtain ⟨i, hi, hxi⟩ := List.getElem_of_mem hy3
      exact heap.front_max hc List.getElem?_cons_zero i y
        (by rw [List.getElem?_eq_getElem hi, hxi])

theorem priority_queue.drain_all_empty (q : priority_queue α) :
    (priority_queue.drain comp q.size q).2._elements = [] := by
  obtain ⟨h1, h2⟩ := priority_queue.drain_perm comp q.size q (Nat.le_refl _)
  have h3 := h2.length_eq
  rw [List.length_append, h1] at h3
  have h4 : q.size = q._elements.length := rfl
  exact List.eq_nil_of_length_eq_zero (by omega)

end store_proofs

section shell_proofs

variable {α : Type} {comp : α → α → Bool}

open sync_priority_queue

theorem sync_priority_queue.pull_lk_of_pull {s : sync_priority_queue α} {m : α}
    {q' : priority_queue α} (h : s.data_.pull comp = Outcome.returned (m, q')) :
    pull_lk comp s =
      (Outcome.returned m, { s with data_ := q', effects := s.effects ++ [Effect.data_pull] }) := by
  simp only [pull_lk, h]

/-- With a store that is not empty the blocking `pull()` does not wait. -/
theorem sync_priority_queue.pull_of_nonempty (comp : α → α → Bool) (wakes : List (Wakeup α))
    {s : sync_priority_queue α} (hne : s.data_.empty = false) :
    pull comp wakes s = pull_lk comp s := by
  unfold pull wait_until_not_empty
  simp [hne, after_wait]

theorem sync_priority_queue.push_all_data (comp : α → α → Bool) (s : sync_priority_queue α) (xs : List α) :
    List.Perm (push_all comp s xs).data_._elements (xs ++ s.data_._elements) ∧
    (push_all comp s xs).closed_ = s.closed_ ∧
    (s.data_.Reachable comp → (push_all comp s xs).data_.Reachable comp) := by
  induction xs generalizing s with
  | nil => exact ⟨List.Perm.refl _, rfl, id⟩
  | cons x xs ih =>
    obtain ⟨h1, h2, h3⟩ := ih (push comp s x)
    refine ⟨?_, h2, fun hr => h3 (priority_queue.Reachable.push x hr)⟩
    refine h1.trans ?_
    have : List.Perm (push comp s x).data_._elements (x :: s.data_._elements) :=
      priority_queue.push_perm s.data_ x
    exact (this.append_left xs).trans List.perm_middle

theorem sync_priority_queue.pull_repeat_eq_drain (comp : α → α → Bool) (wakes : List (Wakeup α)) :
    ∀ (n : Nat) (s : sync_priority_queue α), n ≤ s.data_.size →
      (pull_repeat comp wakes n s).1 = (s.data_.drain comp n).1.map Outcome.returned ∧
      (pull_repeat comp wakes n s).2.data_ = (s.data_.drain comp n).2 ∧
      (pull_repeat comp wakes n s).2.closed_ = s.closed_ := by
  intro n
  induction n with
  | zero => intro s _; exact ⟨rfl, rfl, rfl⟩
  | succ n ih =>
    intro s hn
    obtain ⟨⟨l⟩, c, e⟩ := s
    cases l with
    | nil => simp [priority_queue.size] at hn
    | cons front rest =>
      obtain ⟨H, h1, _, h3⟩ := priority_queue.pull_cons comp front rest
      have hH : n ≤ (⟨H⟩ : priority_queue α).size := by
        simp only [priority_queue.size, List.length_cons] at hn ⊢
        rw [h3.length_eq]; omega
      have hp : pull comp wakes ⟨⟨front :: rest⟩, c, e⟩
          = (Outcome.returned front, ⟨⟨H⟩, c, e ++ [Effect.data_pull]⟩) := by
        rw [pull_of_nonempty comp wakes (by rfl), pull_lk_of_pull h1]
      obtain ⟨i1, i2, i3⟩ := ih ⟨⟨H⟩, c, e ++ [Effect.data_pull]⟩ hH
      simp only [pull_repeat, hp, priority_queue.drain, h1]
      exact ⟨by simp [i1], i2, i3⟩

theorem sync_priority_queue.pull_until_of_nonempty (tp : time_point) (wakes : List (Wakeup α))
    {s : sync_priority_queue α} (hne : s.data_.empty = false) :
    pull_until comp tp wakes s = make_optional (pull_lk comp s) := by
  unfold pull_until
  simp [hne]

/-- With a closed queue and an empty store `pull_until` throws before any wait. -/
theorem sync_priority_queue.pull_until_of_closed_empty (tp : time_point)
    (wakes : List (Wakeup α)) {s : sync_priority_queue α}
    (hcl : s.closed = true) (hem : s.data_.empty = true) :
    pull_until comp tp wakes s = (Outcome.raised, s) := by
  unfold pull_until
  simp [hcl, hem]

theorem sync_priority_queue.pull_of_closed_empty (wakes : List (Wakeup α))
    {s : sync_priority_queue α} (hcl : s.closed = true) (hem : s.data_.empty = true) :
    pull comp wakes s = (Outcome.raised, s) := by
  unfold pull wait_until_not_empty
  simp [hcl, hem, after_wait]

/-- Every pull that has the mutex and finds the store not empty goes straight to the
private `pull(lk)`. -/
theorem PullCall.run_of_nonempty (c : PullCall α) {s : sync_priority_queue α}
    (hl : c.locks = true) (hne : s.data_.empty = false) :
    c.run comp s = make_optional (pull_lk comp s) := by
  cases c with
  | pull wakes => simp only [PullCall.run, pull_of_nonempty comp wakes hne]
  | pull_until tp wakes => exact pull_until_of_nonempty tp wakes hne
  | pull_for now dura wakes => exact pull_until_of_nonempty _ wakes hne
  | pull_no_wait => simp [PullCall.run, sync_priority_queue.pull_no_wait, hne]
  | try_pull owns_lock wakes =>
    simp only [PullCall.locks] at hl
    subst hl
    have := sync_priority_queue.pull_of_nonempty comp wakes hne
    unfold sync_priority_queue.pull at this
    simp [PullCall.run, sync_priority_queue.try_pull, this]
  | try_pull_no_wait owns_lock =>
    simp only [PullCall.locks] at hl
    subst hl
    simp [PullCall.run, sync_priority_queue.try_pull_no_wait, hne]

theorem PullCall.run_all_eq_drain (comp : α → α → Bool) :
    ∀ (calls : List (PullCall α)) (s : sync_priority_queue α),
      (∀ c ∈ calls, c.locks = true) → calls.length ≤ s.data_.size →
      (PullCall.run_all comp calls s).1
        = (s.data_.drain comp calls.length).1.map (fun y => Outcome.returned (some y)) ∧
      (PullCall.run_all comp calls s).2.data_ = (s.data_.drain comp calls.length).2 ∧
      (PullCall.run_all comp calls s).2.closed_ = s.closed_ := by
  intro calls
  induction calls with
  | nil => intro s _ _; exact ⟨rfl, rfl, rfl⟩
  | cons c cs ih =>
    intro s hl hn
    obtain ⟨⟨l⟩, cl, e⟩ := s
    cases l with
    | nil => simp [priority_queue.size] at hn
    | cons front rest =>
      obtain ⟨H, h1, _, h3⟩ := priority_queue.pull_cons comp front rest
      have hH : cs.length ≤ (⟨H⟩ : priority_queue α).size := by
        simp only [priority_queue.size, List.length_cons] at hn ⊢
        rw [h3.length_eq]; omega
      have hp : c.run comp ⟨⟨front :: rest⟩, cl, e⟩
          = (Outcome.returned (some front), ⟨⟨H⟩, cl, e ++ [Effect.data_pull]⟩) := by
        rw [PullCall.run_of_nonempty c (hl c (List.mem_cons_self _ _)) (by rfl),
          pull_lk_of_pull h1]
        rfl
      obtain ⟨i1, i2, i3⟩ := ih ⟨⟨H⟩, cl, e ++ [Effect.data_pull]⟩
        (fun c' hc' => hl c' (List.mem_cons_of_mem _ hc')) hH
      simp only [PullCall.run_all, hp, List.length_cons, priority_queue.drain, h1]
      exact ⟨by simp [i1], i2, i3⟩

end shell_proofs

section wait_proofs

variable {α : Type} {comp : α → α → Bool}

open sync_priority_queue

theorem sync_priority_queue.pull_lk_closed (comp : α → α → Bool) (s : sync_priority_queue α) :
    (pull_lk comp s).2.closed_ = s.closed_ := by
  unfold pull_lk
  split <;> rfl

/-- On a store that is not empty the private `pull(lk)` returns an item. -/
theorem sync_priority_queue.pull_lk_returns (comp : α → α → Bool) {s : sync_priority_queue α}
    (hne : s.data_.empty = false) :
    ∃ m q', s.data_.pull comp = Outcome.returned (m, q') ∧
      pull_lk comp s = (Outcome.returned m,
        { s with data_ := q', effects := s.effects ++ [Effect.data_pull] }) := by
  obtain ⟨⟨l⟩, c, e⟩ := s
  cases l with
  | nil => simp [priority_queue.empty] at hne
  | cons front rest =>
    obtain ⟨H, h1, _, _⟩ := priority_queue.pull_cons comp front rest
    exact ⟨front, ⟨H⟩, h1, pull_lk_of_pull h1⟩

theorem sync_priority_queue.pull_no_wait_closed (comp : α → α → Bool)
    (s : sync_priority_queue α) :
    (pull_no_wait comp s).2.closed_ = s.closed_ := by
  unfold pull_no_wait
  split
  · rfl
  · have := pull_lk_closed comp s
    unfold make_optional
    split <;> exact this

theorem sync_priority_queue.other_closed (comp : α → α → Bool) (s : sync_priority_queue α)
    (o : Other α) (hcl : s.closed_ = true) : (other comp s o).closed_ = true := by
  cases o with
  | push x => exact hcl
  | pull => simp only [other]; rw [pull_no_wait_closed]; exact hcl
  | close => rfl

theorem sync_priority_queue.wait_closed (comp : α → α → Bool) (w : Wakeup α) :
    ∀ (s : sync_priority_queue α), s.closed_ = true → (wait comp w s).closed_ = true := by
  unfold wait
  induction w.others with
  | nil => intro s h; exact h
  | cons o os ih => intro s h; exact ih _ (other_closed comp s o h)

theorem sync_priority_queue.interfere_closed (comp : α → α → Bool) (ws : List (Wakeup α)) :
    ∀ (s : sync_priority_queue α), s.closed_ = true → (interfere comp ws s).closed_ = true := by
  unfold interfere
  induction ws with
  | nil => intro s h; exact h
  | cons w ws ih => intro s h; exact ih _ (wait_closed comp w s h)

theorem sync_priority_queue.interfere_nil (comp : α → α → Bool) (s : sync_priority_queue α) :
    interfere comp [] s = s := rfl

theorem sync_priority_queue.interfere_cons (comp : α → α → Bool) (w : Wakeup α)
    (ws : List (Wakeup α)) (s : sync_priority_queue α) :
    interfere comp (w :: ws) s = interfere comp ws (wait comp w s) := rfl

theorem sync_priority_queue.interfere_append (comp : α → α → Bool) (ws vs : List (Wakeup α))
    (s : sync_priority_queue α) :
    interfere comp (ws ++ vs) s = interfere comp vs (interfere comp ws s) := by
  unfold interfere
  rw [List.foldl_append]

/-- Wakeups during which no other thread operates leave the queue as it is. -/
theorem sync_priority_queue.interfere_of_no_others (comp : α → α → Bool) :
    ∀ (ws : List (Wakeup α)) (s : sync_priority_queue α), (∀ w ∈ ws, w.others = []) →
      interfere comp ws s = s := by
  intro ws
  induction ws with
  | nil => intro s _; rfl
  | cons w ws ih =>
    intro s h
    rw [interfere_cons]
    have hw : wait comp w s = s := by
      unfold wait
      rw [h w (List.mem_cons_self _ _)]
      rfl
    rw [hw]
    exact ih s (fun v hv => h v (List.mem_cons_of_mem _ hv))

theorem sync_priority_queue.pull_until_nil (comp : α → α → Bool) (tp : time_point)
    {s : sync_priority_queue α} (hop : s.closed = false) (hem : s.data_.empty = true) :
    pull_until comp tp [] s = (Outcome.blocked, s) := by
  rw [pull_until]
  simp [hop, hem]

/-- One turn of the loop of `pull_until` on an open queue with an empty store. -/
theorem sync_priority_queue.pull_until_cons (comp : α → α → Bool) (tp : time_point)
    (w : Wakeup α) (rest : List (Wakeup α)) {s : sync_priority_queue α}
    (hop : s.closed = false) (hem : s.data_.empty = true) :
    pull_until comp tp (w :: rest) s =
      if w.status = cv_status.timeout then (Outcome.returned none, wait comp w s)
      else pull_until comp tp rest (wait comp w s) := by
  rw [pull_until]
  simp only [hop, hem, if_true, Bool.false_eq_true, if_false]
  rfl

theorem sync_priority_queue.wait_until_not_empty_nil (comp : α → α → Bool)
    {s : sync_priority_queue α} (hop : s.closed = false) (hem : s.data_.empty = true) :
    wait_until_not_empty comp [] s = (Outcome.blocked, s) := by
  rw [wait_until_not_empty]
  simp [hop, hem]

theorem sync_priority_queue.wait_until_not_empty_cons (comp : α → α → Bool)
    (w : Wakeup α) (rest : List (Wakeup α)) {s : sync_priority_queue α}
    (hop : s.closed = false) (hem : s.data_.empty = true) :
    wait_until_not_empty comp (w :: rest) s = wait_until_not_empty comp rest (wait comp w s) := by
  rw [wait_until_not_empty]
  simp [hop, hem]

/-- However `pull_until` ends, it ends on the state some number of its wakeups has
led to, and it has called the private `pull(lk)` only on a store that is not empty. -/
theorem sync_priority_queue.pull_until_shape (comp : α → α → Bool) (tp : time_point) :
    ∀ (wakes : List (Wakeup α)) (s : sync_priority_queue α),
      ∃ k, k ≤ wakes.length ∧
        PullShape comp (pull_until comp tp wakes s) (interfere comp (wakes.take k) s) := by
  intro wakes
  induction wakes with
  | nil =>
    intro s
    refine ⟨0, Nat.le_refl _, ?_⟩
    cases hem : s.data_.empty with
    | false => exact Or.inr (Or.inr (Or.inr ⟨hem, pull_until_of_nonempty tp [] hem⟩))
    | true =>
      cases hcl : s.closed with
      | true => exact Or.inr (Or.inl (pull_until_of_closed_empty tp [] hcl hem))
      | false => exact Or.inr (Or.inr (Or.inl (pull_until_nil comp tp hcl hem)))
  | cons w rest ih =>
    intro s
    cases hem : s.data_.empty with
    | false =>
      exact ⟨0, Nat.zero_le _, Or.inr (Or.inr (Or.inr ⟨hem, pull_until_of_nonempty tp _ hem⟩))⟩
    | true =>
      cases hcl : s.closed with
      | true =>
        exact ⟨0, Nat.zero_le _, Or.inr (Or.inl (pull_until_of_closed_empty tp _ hcl hem))⟩
      | false =>
        rw [pull_until_cons comp tp w rest hcl hem]
        by_cases hto : w.status = cv_status.timeout
        · rw [if_pos hto]
          exact ⟨1, by simp, Or.inl rfl⟩
        · rw [if_neg hto]
          obtain ⟨k, hk, hshape⟩ := ih (wait comp w s)
          refine ⟨k + 1, by simp only [List.length_cons]; omega, ?_⟩
          rw [List.take_succ_cons, interfere_cons]
          exact hshape

/-- However `wait_until_not_empty` ends, it ends on the state some number of its
wakeups has led to, and it returns only on a store that is not empty. -/
theorem sync_priority_queue.wait_until_not_empty_shape (comp : α → α → Bool) :
    ∀ (wakes : List (Wakeup α)) (s : sync_priority_queue α),
      ∃ k, k ≤ wakes.length ∧
        (((interfere comp (wakes.take k) s).data_.empty = false ∧
            wait_until_not_empty comp wakes s
              = (Outcome.returned (), interfere comp (wakes.take k) s)) ∨
          wait_until_not_empty comp wakes s
            = (Outcome.raised, interfere comp (wakes.take k) s) ∨
          wait_until_not_empty comp wakes s
            = (Outcome.blocked, interfere comp (wakes.take k) s)) := by
  have hfull : ∀ (wakes : List (Wakeup α)) (s : sync_priority_queue α),
      s.data_.empty = false → wait_until_not_empty comp wakes s = (Outcome.returned (), s) := by
    intro wakes s h
    unfold wait_until_not_empty
    simp [h]
  have hclosed : ∀ (wakes : List (Wakeup α)) (s : sync_priority_queue α),
      s.data_.empty = true → s.closed = true →
      wait_until_not_empty comp wakes s = (Outcome.raised, s) := by
    intro wakes s h1 h2
    unfold wait_until_not_empty
    simp [h1, h2]
  intro wakes
  induction wakes with
  | nil =>
    intro s
    refine ⟨0, Nat.le_refl _, ?_⟩
    cases hem : s.data_.empty with
    | false => exact Or.inl ⟨hem, hfull [] s hem⟩
    | true =>
      cases hcl : s.closed with
      | true => exact Or.inr (Or.inl (hclosed [] s hem hcl))
      | false => exact Or.inr (Or.inr (wait_until_not_empty_nil comp hcl hem))
  | cons w rest ih =>
    intro s
    cases hem : s.data_.empty with
    | false => exact ⟨0, Nat.zero_le _, Or.inl ⟨hem, hfull _ s hem⟩⟩
    | true =>
      cases hcl : s.closed with
      | true => exact ⟨0, Nat.zero_le _, Or.inr (Or.inl (hclosed _ s hem hcl))⟩
      | false =>
        rw [wait_until_not_empty_cons comp w rest hcl hem]
        obtain ⟨k, hk, hshape⟩ := ih (wait comp w s)
        refine ⟨k + 1, by simp only [List.length_cons]; omega, ?_⟩
        rw [List.take_succ_cons, interfere_cons]
        exact hshape

/-- The blocking `pull()`, its item reported as present, ends in one of the ways of
`PullShape`. -/
theorem sync_priority_queue.pull_shape (comp : α → α → Bool)
    (wakes : List (Wakeup α)) (s : sync_priority_queue α) :
    ∃ k, k ≤ wakes.length ∧
      PullShape comp (make_optional (pull comp wakes s)) (interfere comp (wakes.take k) s) := by
  obtain ⟨k, hk, h⟩ := wait_until_not_empty_shape comp wakes s
  refine ⟨k, hk, ?_⟩
  unfold pull
  rcases h with ⟨hne, h⟩ | h | h
  · rw [h]
    exact Or.inr (Or.inr (Or.inr ⟨hne, rfl⟩))
  · rw [h]
    exact Or.inr (Or.inl rfl)
  · rw [h]
    exact Or.inr (Or.inr (Or.inl rfl))

/-- Every pull call ends in one of the ways of `PullShape`, on the state some number
of its wakeups has led to. -/
theorem PullCall.run_shape (comp : α → α → Bool) (c : PullCall α) (s : sync_priority_queue α) :
    ∃ k, k ≤ c.wakes.length ∧
      PullShape comp (c.run comp s) (interfere comp (c.wakes.take k) s) := by
  cases c with
  | pull wakes => exact sync_priority_queue.pull_shape comp wakes s
  | pull_until tp wakes => exact sync_priority_queue.pull_until_shape comp tp wakes s
  | pull_for now dura wakes => exact sync_priority_queue.pull_until_shape comp _ wakes s
  | pull_no_wait =>
    refine ⟨0, Nat.le_refl _, ?_⟩
    cases hem : s.data_.empty with
    | true =>
      left
      simp [PullCall.run, sync_priority_queue.pull_no_wait, hem, PullCall.wakes,
        sync_priority_queue.interfere]
    | false =>
      right; right; right
      refine ⟨hem, ?_⟩
      simp [PullCall.run, sync_priority_queue.pull_no_wait, hem, PullCall.wakes,
        sync_priority_queue.interfere]
  | try_pull owns_lock wakes =>
    cases owns_lock with
    | false => exact ⟨0, Nat.zero_le _, Or.inl rfl⟩
    | true =>
      obtain ⟨k, hk, h⟩ := sync_priority_queue.pull_shape comp wakes s
      exact ⟨k, hk, h⟩
  | try_pull_no_wait owns_lock =>
    refine ⟨0, Nat.le_refl _, ?_⟩
    cases owns_lock with
    | false => exact Or.inl rfl
    | true =>
      cases hem : s.data_.empty with
      | true =>
        left
        simp [PullCall.run, sync_priority_queue.try_pull_no_wait, hem, PullCall.wakes,
          sync_priority_queue.interfere]
      | false =>
        right; right; right
        refine ⟨hem, ?_⟩
        simp [PullCall.run, sync_priority_queue.try_pull_no_wait, hem, PullCall.wakes,
          sync_priority_queue.interfere]

/-- A pull call that ends in one of the ways of `PullShape` on `t` has its outcome
defined, leaves the closed flag of `t`, and adds to the effects of `t` at most the
removal of an item. -/
theorem PullShape.facts (comp : α → α → Bool)
    {r : Outcome (Option α) × sync_priority_queue α} {t : sync_priority_queue α}
    (h : PullShape comp r t) :
    r.1 ≠ Outcome.undefined ∧ r.2.closed_ = t.closed_ ∧
      (r.2.effects = t.effects ∨ r.2.effects = t.effects ++ [Effect.data_pull]) := by
  rcases h with h | h | h | ⟨hne, h⟩
  · rw [h]; exact ⟨(fun e => by cases e), rfl, Or.inl rfl⟩
  · rw [h]; exact ⟨(fun e => by cases e), rfl, Or.inl rfl⟩
  · rw [h]; exact ⟨(fun e => by cases e), rfl, Or.inl rfl⟩
  · obtain ⟨m, q', _, hp⟩ := sync_priority_queue.pull_lk_returns comp hne
    rw [h, hp]
    exact ⟨(fun e => by cases e), rfl, Or.inr rfl⟩

/-- A run of wakeups that do not end the wait leaves `pull_until` where it was: on
an open queue with an empty store, about to wait for the next wakeup. -/
theorem sync_priority_queue.pull_until_idle (comp : α → α → Bool) (tp : time_point) :
    ∀ (pre : List (Wakeup α)) (s : sync_priority_queue α),
      s.closed = false → s.data_.empty = true → idle comp pre s = true →
      (interfere comp pre s).closed = false ∧ (interfere comp pre s).data_.empty = true ∧
      ∀ rest, pull_until comp tp (pre ++ rest) s
        = pull_until comp tp rest (interfere comp pre s) := by
  intro pre
  induction pre with
  | nil => intro s hop hem _; exact ⟨hop, hem, fun rest => rfl⟩
  | cons w ws ih =>
    intro s hop hem hidle
    simp only [idle, Bool.and_eq_true, decide_eq_true_eq, Bool.not_eq_true'] at hidle
    obtain ⟨⟨⟨hst, hem'⟩, hop'⟩, hrest⟩ := hidle
    obtain ⟨i1, i2, i3⟩ := ih (wait comp w s) hop' hem' hrest
    refine ⟨i1, i2, ?_⟩
    intro rest
    have hnt : ¬ w.status = cv_status.timeout := by
      rw [hst]; intro e; cases e
    rw [List.cons_append, pull_until_cons comp tp w (ws ++ rest) hop hem, if_neg hnt]
    exact i3 rest

theorem sync_priority_queue.pull_lk_undefined_iff (comp : α → α → Bool)
    (s : sync_priority_queue α) :
    (pull_lk comp s).1 = Outcome.undefined ↔ s.data_.empty = true := by
  constructor
  · intro h
    cases hem : s.data_.empty with
    | true => rfl
    | false =>
      obtain ⟨m, q', _, hp⟩ := pull_lk_returns comp hem
      rw [hp] at h
      cases h
  · intro h
    obtain ⟨⟨l⟩, c, e⟩ := s
    cases l with
    | nil => rfl
    | cons a l => simp [priority_queue.empty] at h

end wait_proofs

theorem sample_store_reachable : sample_store.Reachable natLess :=
  .push 4 (.push 5 (.push 3 .init))

theorem sample_queue_reachable : sample_queue.data_.Reachable natLess :=
  .push 4 (.push 5 (.push 3 .init))

theorem sample_closed_reachable : sample_closed.data_.Reachable natLess :=
  .push 4 (.push 5 (.push 3 .init))

/-- C1: items pushed into an initially empty queue and then pulled with the blocking
`pull()` until the queue is empty come out in non-increasing priority order: every
call returns an item, the items returned are the items pushed, each as often as it was
pushed, and `comp a b` is false for consecutive results `a`, `b`. -/
theorem pulls_non_increasing {α : Type} {comp : α → α → Bool} (hc : StrictWeakOrder comp)
    (xs : List α) (wakes : List (Wakeup α)) :
    ∃ ys : List α,
      (sync_priority_queue.pull_repeat comp wakes xs.length
        (sync_priority_queue.push_all comp sync_priority_queue.init xs)).1
          = ys.map Outcome.returned ∧
      ys.length = xs.length ∧
      List.Perm ys xs ∧
      (sync_priority_queue.pull_repeat comp wakes xs.length
        (sync_priority_queue.push_all comp sync_priority_queue.init xs)).2.data_.empty = true ∧
      List.Chain' (fun a b => comp a b = false) ys := by
  obtain ⟨h1, h2, h3⟩ :=
    sync_priority_queue.push_all_data comp sync_priority_queue.init xs
  have hsize : (sync_priority_queue.push_all comp sync_priority_queue.init xs).data_.size
      = xs.length := by
    simp only [priority_queue.size]
    rw [h1.length_eq]; simp [sync_priority_queue.init, priority_queue.init]
  have heap := (h3 priority_queue.Reachable.init).isHeap hc
  obtain ⟨d1, d2, _⟩ := sync_priority_queue.pull_repeat_eq_drain comp wakes xs.length
    (sync_priority_queue.push_all comp sync_priority_queue.init xs) (by omega)
  obtain ⟨p1, p2⟩ := priority_queue.drain_perm comp xs.length
    (sync_priority_queue.push_all comp sync_priority_queue.init xs).data_ (by omega)
  obtain ⟨c1, _⟩ := priority_queue.drain_sorted hc xs.length
    (sync_priority_queue.push_all comp sync_priority_queue.init xs).data_ heap (by omega)
  have hempty : ((sync_priority_queue.push_all comp sync_priority_queue.init xs).data_.drain comp
      xs.length).2._elements = [] := by
    rw [← hsize]; exact priority_queue.drain_all_empty _
  have hperm : List.Perm ((sync_priority_queue.push_all comp sync_priority_queue.init
      xs).data_.drain comp xs.length).1 xs := by
    rw [hempty, List.append_nil] at p2
    refine p2.trans (h1.trans ?_)
    simp [sync_priority_queue.init, priority_queue.init]
  refine ⟨_, d1, p1, hperm, ?_, c1⟩
  rw [d2, priority_queue.empty, hempty]
  rfl

theorem pulls_non_increasing_witness :
    StrictWeakOrder natLess ∧
    ∃ ys : List Nat,
      (sync_priority_queue.pull_repeat natLess [] [3, 5, 4].length
        (sync_priority_queue.push_all natLess sync_priority_queue.init [3, 5, 4])).1
          = ys.map Outcome.returned ∧
      ys.length = [3, 5, 4].length ∧
      List.Perm ys [3, 5, 4] ∧
      (sync_priority_queue.pull_repeat natLess [] [3, 5, 4].length
        (sync_priority_queue.push_all natLess sync_priority_queue.init [3, 5, 4])).2.data_.empty
          = true ∧
      List.Chain' (fun a b => natLess a b = false) ys :=
  ⟨natLess_strictWeakOrder, pulls_non_increasing natLess_strictWeakOrder [3, 5, 4] []⟩

/-- C2: on every non-empty store reachable from the empty store by `push` and `pull`,
for a strict weak ordering, `pull()` returns a stored element `m` with `comp m x`
false for every stored `x`, and the size goes down by exactly one. -/
theorem store_pull_returns_highest {α : Type} {comp : α → α → Bool}
    (hc : StrictWeakOrder comp) (q : priority_queue α)
    (hr : q.Reachable comp) (hne : q.empty = false) :
    ∃ m q', q.pull comp = Outcome.returned (m, q') ∧ m ∈ q._elements ∧
      (∀ x ∈ q._elements, comp m x = false) ∧ q'.size + 1 = q.size := by
  obtain ⟨m, q', h1, h2, h3, h4, _, _⟩ := priority_queue.pull_max hc q (hr.isHeap hc) hne
  exact ⟨m, q', h1, h2, h3, h4⟩

theorem store_pull_returns_highest_witness :
    StrictWeakOrder natLess ∧ sample_store.Reachable natLess ∧ sample_store.empty = false ∧
    ∃ m q', sample_store.pull natLess = Outcome.returned (m, q') ∧
      m ∈ sample_store._elements ∧
      (∀ x ∈ sample_store._elements, natLess m x = false) ∧
      q'.size + 1 = sample_store.size :=
  ⟨natLess_strictWeakOrder, sample_store_reachable, by decide,
    store_pull_returns_highest natLess_strictWeakOrder sample_store sample_store_reachable
      (by decide)⟩

/-- C3: nothing is lost and nothing is duplicated.  The items that come out of an
initially empty queue, pulled until it is empty, are the pushed items with their
multiplicities; each `push` adds exactly the pushed item to the store and each `pull`
removes exactly the item it returns. -/
theorem pushes_then_pulls_same_items {α : Type} (comp : α → α → Bool)
    (xs : List α) (wakes : List (Wakeup α)) :
    (∃ ys : List α,
      (sync_priority_queue.pull_repeat comp wakes xs.length
        (sync_priority_queue.push_all comp sync_priority_queue.init xs)).1
          = ys.map Outcome.returned ∧
      List.Perm ys xs ∧
      (sync_priority_queue.pull_repeat comp wakes xs.length
        (sync_priority_queue.push_all comp sync_priority_queue.init xs)).2.data_._elements
          = []) ∧
    (∀ (q : priority_queue α) (x : α), List.Perm (q.push comp x)._elements (x :: q._elements)) ∧
    (∀ (q q' : priority_queue α) (m : α), q.pull comp = Outcome.returned (m, q') →
      List.Perm q._elements (m :: q'._elements)) := by
  refine ⟨?_, priority_queue.push_perm, fun q q' m h => priority_queue.pull_perm h⟩
  obtain ⟨h1, _, _⟩ :=
    sync_priority_queue.push_all_data comp sync_priority_queue.init xs
  have hsize : (sync_priority_queue.push_all comp sync_priority_queue.init xs).data_.size
      = xs.length := by
    simp only [priority_queue.size]
    rw [h1.length_eq]; simp [sync_priority_queue.init, priority_queue.init]
  obtain ⟨d1, d2, _⟩ := sync_priority_queue.pull_repeat_eq_drain comp wakes xs.length
    (sync_priority_queue.push_all comp sync_priority_queue.init xs) (by omega)
  obtain ⟨_, p2⟩ := priority_queue.drain_perm comp xs.length
    (sync_priority_queue.push_all comp sync_priority_queue.init xs).data_ (by omega)
  have hempty : ((sync_priority_queue.push_all comp sync_priority_queue.init xs).data_.drain comp
      xs.length).2._elements = [] := by
    rw [← hsize]; exact priority_queue.drain_all_empty _
  refine ⟨_, d1, ?_, by rw [d2]; exact hempty⟩
  rw [hempty, List.append_nil] at p2
  refine p2.trans (h1.trans ?_)
  simp [sync_priority_queue.init, priority_queue.init]

/-- C4, as the code has it: the store's `pull()` never fails with an Underflow
condition, for it has no emptiness test; on an empty store its behaviour is undefined
(`back()` and `pop_back()` of an empty vector), and on every non-empty store it
returns an item and leaves one item fewer. -/
theorem store_pull_no_underflow {α : Type} (comp : α → α → Bool) (q : priority_queue α) :
    q.pull comp ≠ Outcome.raised ∧
    (q.empty = true → q.pull comp = Outcome.undefined) ∧
    (q.empty = false → ∃ m q', q.pull comp = Outcome.returned (m, q') ∧
      q'.size + 1 = q.size) := by
  obtain ⟨l⟩ := q
  cases l with
  | nil =>
    refine ⟨?_, fun _ => rfl, ?_⟩
    · rw [priority_queue.pull_nil]; intro h; cases h
    · intro h; simp [priority_queue.empty] at h
  | cons front rest =>
    obtain ⟨H, h1, _, h3⟩ := priority_queue.pull_cons comp front rest
    refine ⟨?_, ?_, fun _ => ⟨front, ⟨H⟩, h1, ?_⟩⟩
    · rw [h1]; intro h; cases h
    · intro h; simp [priority_queue.empty] at h
    · simp only [priority_queue.size, List.length_cons]
      rw [h3.length_eq]

/-- C4, the claim as written fails: on the empty store `pull()` does not end with a
raised Underflow condition; what it does there is undefined. -/
theorem store_pull_empty_not_raised :
    ¬ (priority_queue.pull natLess (priority_queue.init : priority_queue Nat)
        = Outcome.raised) ∧
    priority_queue.pull natLess (priority_queue.init : priority_queue Nat)
        = Outcome.undefined := by
  decide

/-- C5: on a closed queue `try_push`, in its copy and in its move overload, returns
the closed status and leaves the state, so the store's contents and size, as they
were; the same holds for every list of repeated attempts. -/
theorem try_push_closed {α : Type} (comp : α → α → Bool) (s : sync_priority_queue α)
    (hcl : s.closed = true) (x : α) (move : Bool) (xs : List α) :
    sync_priority_queue.try_push comp s x = (queue_op_status.closed, s) ∧
    sync_priority_queue.try_push_move comp s x = (queue_op_status.closed, s) ∧
    sync_priority_queue.try_push_all comp move xs s
      = (xs.map (fun _ => queue_op_status.closed), s) := by
  refine ⟨by simp [sync_priority_queue.try_push, hcl],
    by simp [sync_priority_queue.try_push_move, hcl], ?_⟩
  induction xs with
  | nil => rfl
  | cons y ys ih =>
    cases move <;>
      simp [sync_priority_queue.try_push_all, sync_priority_queue.try_push,
        sync_priority_queue.try_push_move, hcl, ih]

theorem try_push_closed_witness :
    sample_closed.closed = true ∧
    sync_priority_queue.try_push natLess sample_closed 7
      = (queue_op_status.closed, sample_closed) ∧
    sync_priority_queue.try_push_move natLess sample_closed 7
      = (queue_op_status.closed, sample_closed) ∧
    sync_priority_queue.try_push_all natLess true [1, 2] sample_closed
      = ([1, 2].map (fun _ => queue_op_status.closed), sample_closed) :=
  ⟨by decide, try_push_closed natLess sample_closed (by decide) 7 true [1, 2]⟩

/-- C6: on an open queue `try_push x` (either overload) returns success and inserts
exactly `x`: the store afterwards holds the previous items and `x`, its size has grown
by one, and the queue is still open. -/
theorem try_push_open {α : Type} (comp : α → α → Bool) (s : sync_priority_queue α)
    (hop : s.closed = false) (x : α) :
    ((sync_priority_queue.try_push comp s x).1 = queue_op_status.success ∧
      List.Perm (sync_priority_queue.try_push comp s x).2.data_._elements
        (x :: s.data_._elements) ∧
      (sync_priority_queue.try_push comp s x).2.data_.size = s.data_.size + 1 ∧
      (sync_priority_queue.try_push comp s x).2.closed = false) ∧
    ((sync_priority_queue.try_push_move comp s x).1 = queue_op_status.success ∧
      List.Perm (sync_priority_queue.try_push_move comp s x).2.data_._elements
        (x :: s.data_._elements) ∧
      (sync_priority_queue.try_push_move comp s x).2.data_.size = s.data_.size + 1 ∧
      (sync_priority_queue.try_push_move comp s x).2.closed = false) := by
  have hp : List.Perm (s.data_.push comp x)._elements (x :: s.data_._elements) :=
    priority_queue.push_perm s.data_ x
  have hs : (s.data_.push comp x).size = s.data_.size + 1 := by
    simp only [priority_queue.size]
    rw [hp.length_eq, List.length_cons]
  have hop' : s.closed_ = false := hop
  constructor
  · simp only [sync_priority_queue.try_push, sync_priority_queue.closed, hop',
      Bool.false_eq_true, if_false, sync_priority_queue.push_lk]
    exact ⟨trivial, hp, hs, trivial⟩
  · simp only [sync_priority_queue.try_push_move, sync_priority_queue.closed, hop',
      Bool.false_eq_true, if_false, sync_priority_queue.push_rvalue]
    exact ⟨trivial, hp, hs, trivial⟩

theorem try_push_open_witness :
    sample_queue.closed = false ∧
    ((sync_priority_queue.try_push natLess sample_queue 7).1 = queue_op_status.success ∧
      List.Perm (sync_priority_queue.try_push natLess sample_queue 7).2.data_._elements
        (7 :: sample_queue.data_._elements) ∧
      (sync_priority_queue.try_push natLess sample_queue 7).2.data_.size
        = sample_queue.data_.size + 1 ∧
      (sync_priority_queue.try_push natLess sample_queue 7).2.closed = false) ∧
    ((sync_priority_queue.try_push_move natLess sample_queue 7).1 = queue_op_status.success ∧
      List.Perm (sync_priority_queue.try_push_move natLess sample_queue 7).2.data_._elements
        (7 :: sample_queue.data_._elements) ∧
      (sync_priority_queue.try_push_move natLess sample_queue 7).2.data_.size
        = sample_queue.data_.size + 1 ∧
      (sync_priority_queue.try_push_move natLess sample_queue 7).2.closed = false) :=
  ⟨by decide, try_push_open natLess sample_queue (by decide) 7⟩

/-- C7: on a queue that is closed with an empty store, `pull_until` and `pull_for`,
for every deadline and duration and whatever wakeups are on offer, raise without
waiting and leave the state as it was, and so does the blocking `pull()`; hence every
call of a sequence of such calls raises. -/
theorem pulls_raise_when_closed_and_empty {α : Type} (comp : α → α → Bool)
    (s : sync_priority_queue α) (hcl : s.closed = true) (hem : s.data_.empty = true)
    (tp now : time_point) (dura : duration) (wakes : List (Wakeup α))
    (calls : List (PullCall α)) (hkind : ∀ c ∈ calls, (c.timed || c.is_pull) = true) :
    sync_priority_queue.pull_until comp tp wakes s = (Outcome.raised, s) ∧
    sync_priority_queue.pull_for comp now dura wakes s = (Outcome.raised, s) ∧
    sync_priority_queue.pull comp wakes s = (Outcome.raised, s) ∧
    PullCall.run_all comp calls s = (calls.map (fun _ => Outcome.raised), s) := by
  refine ⟨sync_priority_queue.pull_until_of_closed_empty tp wakes hcl hem,
    sync_priority_queue.pull_until_of_closed_empty _ wakes hcl hem,
    sync_priority_queue.pull_of_closed_empty wakes hcl hem, ?_⟩
  induction calls with
  | nil => rfl
  | cons c cs ih =>
    have hrun : c.run comp s = (Outcome.raised, s) := by
      have hk := hkind c (List.mem_cons_self _ _)
      cases c with
      | pull w =>
        simp only [PullCall.run, sync_priority_queue.pull_of_closed_empty w hcl hem]
        rfl
      | pull_until t w => exact sync_priority_queue.pull_until_of_closed_empty t w hcl hem
      | pull_for n d w => exact sync_priority_queue.pull_until_of_closed_empty _ w hcl hem
      | pull_no_wait => simp [PullCall.timed, PullCall.is_pull] at hk
      | try_pull o w => simp [PullCall.timed, PullCall.is_pull] at hk
      | try_pull_no_wait o => simp [PullCall.timed, PullCall.is_pull] at hk
    have ih' := ih (fun c' hc' => hkind c' (List.mem_cons_of_mem _ hc'))
    simp only [PullCall.run_all, hrun, ih', List.map_cons]

theorem pulls_raise_when_closed_and_empty_witness :
    sample_closed_empty.closed = true ∧ sample_closed_empty.data_.empty = true ∧
    (∀ c ∈ sample_blocking_calls, (c.timed || c.is_pull) = true) ∧
    sync_priority_queue.pull_until natLess (-5) [sample_timeout] sample_closed_empty
      = (Outcome.raised, sample_closed_empty) ∧
    sync_priority_queue.pull_for natLess 10 (-20) [sample_timeout] sample_closed_empty
      = (Outcome.raised, sample_closed_empty) ∧
    sync_priority_queue.pull natLess [sample_timeout] sample_closed_empty
      = (Outcome.raised, sample_closed_empty) ∧
    PullCall.run_all natLess sample_blocking_calls sample_closed_empty
      = (sample_blocking_calls.map (fun _ => Outcome.raised), sample_closed_empty) :=
  ⟨by decide, by decide, by decide,
    pulls_raise_when_closed_and_empty natLess sample_closed_empty (by decide) (by decide)
      (-5) 10 (-20) [sample_timeout] sample_blocking_calls (by decide)⟩

/-- C8: a closed queue whose store holds `n > 0` items is drained by `n` successive
calls of `pull_until`, `pull_for`, `pull_no_wait` or `try_pull_no_wait` (with the
mutex available): each call returns a present item, the items come in non-increasing
priority order and are exactly the stored ones; a timed pull made after that raises
and a no-wait pull made after that returns absent. -/
theorem closed_queue_drains {α : Type} {comp : α → α → Bool} (hc : StrictWeakOrder comp)
    (s : sync_priority_queue α) (hcl : s.closed = true) (hr : s.data_.Reachable comp)
    (hn : 0 < s.data_.size) (calls : List (PullCall α)) (hlen : calls.length = s.data_.size)
    (hkind : ∀ c ∈ calls, (c.timed || c.no_wait) = true ∧ c.locks = true)
    (after : PullCall α) :
    ∃ ys : List α,
      (PullCall.run_all comp calls s).1 = ys.map (fun y => Outcome.returned (some y)) ∧
      ys.length = s.data_.size ∧
      List.Chain' (fun a b => comp a b = false) ys ∧
      List.Perm ys s.data_._elements ∧
      (PullCall.run_all comp calls s).2.data_.empty = true ∧
      (after.timed = true →
        after.run comp (PullCall.run_all comp calls s).2
          = (Outcome.raised, (PullCall.run_all comp calls s).2)) ∧
      (after.no_wait = true →
        after.run comp (PullCall.run_all comp calls s).2
          = (Outcome.returned none, (PullCall.run_all comp calls s).2)) := by
  obtain ⟨d1, d2, d3⟩ := PullCall.run_all_eq_drain comp calls s
    (fun c h => (hkind c h).2) (by omega)
  obtain ⟨p1, p2⟩ := priority_queue.drain_perm comp calls.length s.data_ (by omega)
  obtain ⟨c1, _⟩ := priority_queue.drain_sorted hc calls.length s.data_ (hr.isHeap hc) (by omega)
  have hnil : (s.data_.drain comp calls.length).2._elements = [] := by
    rw [hlen]; exact priority_queue.drain_all_empty _
  have hem : (PullCall.run_all comp calls s).2.data_.empty = true := by
    rw [d2, priority_queue.empty, hnil]; rfl
  have hcl' : (PullCall.run_all comp calls s).2.closed = true := by
    show (PullCall.run_all comp calls s).2.closed_ = true
    rw [d3]; exact hcl
  rw [hnil, List.append_nil] at p2
  refine ⟨_, d1, by rw [p1, hlen], c1, p2, hem, ?_, ?_⟩
  · intro ht
    cases after with
    | pull_until t w => exact sync_priority_queue.pull_until_of_closed_empty t w hcl' hem
    | pull_for n d w => exact sync_priority_queue.pull_until_of_closed_empty _ w hcl' hem
    | pull w => simp [PullCall.timed] at ht
    | pull_no_wait => simp [PullCall.timed] at ht
    | try_pull o w => simp [PullCall.timed] at ht
    | try_pull_no_wait o => simp [PullCall.timed] at ht
  · intro hw
    cases after with
    | pull_no_wait => simp [PullCall.run, sync_priority_queue.pull_no_wait, hem]
    | try_pull_no_wait o => simp [PullCall.run, sync_priority_queue.try_pull_no_wait, hem]
    | pull w => simp [PullCall.no_wait] at hw
    | pull_until t w => simp [PullCall.no_wait] at hw
    | pull_for n d w => simp [PullCall.no_wait] at hw
    | try_pull o w => simp [PullCall.no_wait] at hw

theorem closed_queue_drains_witness :
    StrictWeakOrder natLess ∧ sample_closed.closed = true ∧
    sample_closed.data_.Reachable natLess ∧ 0 < sample_closed.data_.size ∧
    sample_calls.length = sample_closed.data_.size ∧
    (∀ c ∈ sample_calls, (c.timed || c.no_wait) = true ∧ c.locks = true) ∧
    ∃ ys : List Nat,
      (PullCall.run_all natLess sample_calls sample_closed).1
        = ys.map (fun y => Outcome.returned (some y)) ∧
      ys.length = sample_closed.data_.size ∧
      List.Chain' (fun a b => natLess a b = false) ys ∧
      List.Perm ys sample_closed.data_._elements ∧
      (PullCall.run_all natLess sample_calls sample_closed).2.data_.empty = true ∧
      ((PullCall.pull_for 0 1 [] : PullCall Nat).timed = true →
        (PullCall.pull_for 0 1 []).run natLess
            (PullCall.run_all natLess sample_calls sample_closed).2
          = (Outcome.raised, (PullCall.run_all natLess sample_calls sample_closed).2)) ∧
      ((PullCall.pull_for 0 1 [] : PullCall Nat).no_wait = true →
        (PullCall.pull_for 0 1 []).run natLess
            (PullCall.run_all natLess sample_calls sample_closed).2
          = (Outcome.returned none,
              (PullCall.run_all natLess sample_calls sample_closed).2)) :=
  ⟨natLess_strictWeakOrder, by decide, sample_closed_reachable, by decide, by decide, by decide,
    closed_queue_drains natLess_strictWeakOrder sample_closed (by decide)
      sample_closed_reachable (by decide) sample_calls (by decide) (by decide)
      (PullCall.pull_for 0 1 [])⟩

/-- C9, as the code has it: on an open queue with an empty store, when a wait inside
`pull_until` (and so inside `pull_for`) ends by timeout, after any number of wakeups
that left the call waiting, the call returns absent without raising and changes
nothing itself: the state after the call is the state before the call with the
operations that other threads completed during the waits applied to it.  So with no
operation of another thread during the waits, whatever the number of spurious wakeups
before the timeout, the store, the closed flag and the whole state are exactly what
they were before the call. -/
theorem pull_until_timeout {α : Type} (comp : α → α → Bool) (s : sync_priority_queue α)
    (hop : s.closed = false) (hem : s.data_.empty = true) (tp now : time_point)
    (dura : duration) (pre : List (Wakeup α))
    (hidle : sync_priority_queue.idle comp pre s = true)
    (others : List (Other α)) (rest : List (Wakeup α)) (n : Nat) :
    sync_priority_queue.pull_until comp tp (pre ++ ⟨others, cv_status.timeout⟩ :: rest) s
      = (Outcome.returned none,
          sync_priority_queue.interfere comp (pre ++ [⟨others, cv_status.timeout⟩]) s) ∧
    sync_priority_queue.pull_for comp now dura (pre ++ ⟨others, cv_status.timeout⟩ :: rest) s
      = (Outcome.returned none,
          sync_priority_queue.interfere comp (pre ++ [⟨others, cv_status.timeout⟩]) s) ∧
    sync_priority_queue.pull_until comp tp
        (List.replicate n ⟨[], cv_status.no_timeout⟩ ++ ⟨[], cv_status.timeout⟩ :: rest) s
      = (Outcome.returned none, s) ∧
    sync_priority_queue.pull_for comp now dura
        (List.replicate n ⟨[], cv_status.no_timeout⟩ ++ ⟨[], cv_status.timeout⟩ :: rest) s
      = (Outcome.returned none, s) := by
  have general : ∀ (t : time_point) (p : List (Wakeup α)) (os : List (Other α)),
      sync_priority_queue.idle comp p s = true →
      sync_priority_queue.pull_until comp t (p ++ ⟨os, cv_status.timeout⟩ :: rest) s
        = (Outcome.returned none,
            sync_priority_queue.interfere comp (p ++ [⟨os, cv_status.timeout⟩]) s) := by
    intro t p os hp
    obtain ⟨i1, i2, i3⟩ := sync_priority_queue.pull_until_idle comp t p s hop hem hp
    rw [i3, sync_priority_queue.pull_until_cons comp t _ rest i1 i2, if_pos rfl,
      sync_priority_queue.interfere_append]
    rfl
  have spurious : ∀ (k : Nat),
      sync_priority_queue.idle comp (List.replicate k ⟨[], cv_status.no_timeout⟩) s = true := by
    intro k
    induction k with
    | zero => rfl
    | succ k ih =>
      have hw : sync_priority_queue.wait comp ⟨[], cv_status.no_timeout⟩ s = s := rfl
      simp only [List.replicate_succ, sync_priority_queue.idle, hw, hem, hop, ih]
      rfl
  have quiet : sync_priority_queue.interfere comp
      (List.replicate n ⟨[], cv_status.no_timeout⟩ ++ [⟨[], cv_status.timeout⟩]) s = s := by
    apply sync_priority_queue.interfere_of_no_others
    intro w hw
    rcases List.mem_append.mp hw with h | h
    · rw [List.eq_of_mem_replicate h]
    · rw [List.mem_singleton.mp h]
  refine ⟨general tp pre others hidle, general _ pre others hidle, ?_, ?_⟩
  · rw [general tp _ [] (spurious n), quiet]
  · rw [sync_priority_queue.pull_for, general _ _ [] (spurious n), quiet]

theorem pull_until_timeout_witness :
    (sync_priority_queue.init : sync_priority_queue Nat).closed = false ∧
    (sync_priority_queue.init : sync_priority_queue Nat).data_.empty = true ∧
    sync_priority_queue.idle natLess sample_idle sync_priority_queue.init = true ∧
    sync_priority_queue.pull_until natLess 5
        (sample_idle ++ ⟨[Other.push 4], cv_status.timeout⟩ :: [sample_signal])
        sync_priority_queue.init
      = (Outcome.returned none,
          sync_priority_queue.interfere natLess
            (sample_idle ++ [⟨[Other.push 4], cv_status.timeout⟩]) sync_priority_queue.init) ∧
    sync_priority_queue.pull_for natLess 2 3
        (sample_idle ++ ⟨[Other.push 4], cv_status.timeout⟩ :: [sample_signal])
        sync_priority_queue.init
      = (Outcome.returned none,
          sync_priority_queue.interfere natLess
            (sample_idle ++ [⟨[Other.push 4], cv_status.timeout⟩]) sync_priority_queue.init) ∧
    sync_priority_queue.pull_until natLess 5
        (List.replicate 2 ⟨[], cv_status.no_timeout⟩ ++ ⟨[], cv_status.timeout⟩ :: [sample_signal])
        sync_priority_queue.init
      = (Outcome.returned none, sync_priority_queue.init) ∧
    sync_priority_queue.pull_for natLess 2 3
        (List.replicate 2 ⟨[], cv_status.no_timeout⟩ ++ ⟨[], cv_status.timeout⟩ :: [sample_signal])
        sync_priority_queue.init
      = (Outcome.returned none, sync_priority_queue.init) :=
  ⟨by decide, by decide, by decide,
    pull_until_timeout natLess sync_priority_queue.init (by decide) (by decide) 5 2 3
      sample_idle (by decide) [Other.push 4] [sample_signal] 2⟩

/-- C9, the claim as written fails: on the initial queue, open and with an empty
store, a wait of `pull_until` during which another thread pushes 4 ends by timeout;
the call returns absent, and the store, empty before the call, holds 4 after it. -/
theorem pull_until_timeout_store_differs :
    (sync_priority_queue.init : sync_priority_queue Nat).closed = false ∧
    (sync_priority_queue.init : sync_priority_queue Nat).data_._elements = [] ∧
    sample_timeout.status = cv_status.timeout ∧
    (sync_priority_queue.pull_until natLess 5 [sample_timeout] sync_priority_queue.init).1
      = Outcome.returned none ∧
    (sync_priority_queue.pull_until natLess 5 [sample_timeout]
      sync_priority_queue.init).2.data_._elements = [4] ∧
    ¬ (sync_priority_queue.pull_until natLess 5 [sample_timeout]
      sync_priority_queue.init).2.data_
        = (sync_priority_queue.init : sync_priority_queue Nat).data_ := by
  decide

/-- C10: `pull_no_wait()` always returns (it neither raises nor waits).  With an
empty store, open or closed, it returns absent and leaves the state as it was; with a
non-empty store it returns present with a stored item that no stored item is above,
and removes exactly that item, the closed flag staying as it was. -/
theorem pull_no_wait_spec {α : Type} {comp : α → α → Bool} (hc : StrictWeakOrder comp)
    (s : sync_priority_queue α) (hr : s.data_.Reachable comp) :
    (∃ r, (sync_priority_queue.pull_no_wait comp s).1 = Outcome.returned r) ∧
    (s.data_.empty = true →
      sync_priority_queue.pull_no_wait comp s = (Outcome.returned none, s)) ∧
    (s.data_.empty = false →
      ∃ m q', sync_priority_queue.pull_no_wait comp s
          = (Outcome.returned (some m),
              { s with data_ := q', effects := s.effects ++ [Effect.data_pull] }) ∧
        m ∈ s.data_._elements ∧
        (∀ x ∈ s.data_._elements, comp m x = false) ∧
        List.Perm s.data_._elements (m :: q'._elements) ∧
        q'.size + 1 = s.data_.size) := by
  have hempty : s.data_.empty = true →
      sync_priority_queue.pull_no_wait comp s = (Outcome.returned none, s) := by
    intro hem; simp [sync_priority_queue.pull_no_wait, hem]
  have hfull : s.data_.empty = false →
      ∃ m q', sync_priority_queue.pull_no_wait comp s
          = (Outcome.returned (some m),
              { s with data_ := q', effects := s.effects ++ [Effect.data_pull] }) ∧
        m ∈ s.data_._elements ∧
        (∀ x ∈ s.data_._elements, comp m x = false) ∧
        List.Perm s.data_._elements (m :: q'._elements) ∧
        q'.size + 1 = s.data_.size := by
    intro hne
    obtain ⟨m, q', h1, h2, h3, h4, _, h6⟩ :=
      priority_queue.pull_max hc s.data_ (hr.isHeap hc) hne
    refine ⟨m, q', ?_, h2, h3, h6, h4⟩
    simp only [sync_priority_queue.pull_no_wait, hne, Bool.false_eq_true, if_false,
      sync_priority_queue.pull_lk_of_pull h1, sync_priority_queue.make_optional]
  refine ⟨?_, hempty, hfull⟩
  cases hem : s.data_.empty with
  | true => exact ⟨none, by rw [hempty hem]⟩
  | false =>
    obtain ⟨m, q', h, _⟩ := hfull hem
    exact ⟨some m, by rw [h]⟩

theorem pull_no_wait_spec_witness :
    StrictWeakOrder natLess ∧ sample_queue.data_.Reachable natLess ∧
    (∃ r, (sync_priority_queue.pull_no_wait natLess sample_queue).1 = Outcome.returned r) ∧
    (sample_queue.data_.empty = true →
      sync_priority_queue.pull_no_wait natLess sample_queue
        = (Outcome.returned none, sample_queue)) ∧
    (sample_queue.data_.empty = false →
      ∃ m q', sync_priority_queue.pull_no_wait natLess sample_queue
          = (Outcome.returned (some m),
              { sample_queue with
                data_ := q', effects := sample_queue.effects ++ [Effect.data_pull] }) ∧
        m ∈ sample_queue.data_._elements ∧
        (∀ x ∈ sample_queue.data_._elements, natLess m x = false) ∧
        List.Perm sample_queue.data_._elements (m :: q'._elements) ∧
        q'.size + 1 = sample_queue.data_.size) :=
  ⟨natLess_strictWeakOrder, sample_queue_reachable,
    pull_no_wait_spec natLess_strictWeakOrder sample_queue sample_queue_reachable⟩

/-- C11, as the code has it: when every stored item is strictly below `x` (so
whenever the store is empty), `push(x)` followed at once by `pull_no_wait()` returns
present `x`, and the store is left with the items it held before the push. -/
theorem push_then_pull_no_wait {α : Type} {comp : α → α → Bool} (hc : StrictWeakOrder comp)
    (s : sync_priority_queue α) (hr : s.data_.Reachable comp) (x : α)
    (hbelow : ∀ y ∈ s.data_._elements, comp y x = true) :
    ∃ q', sync_priority_queue.pull_no_wait comp (sync_priority_queue.push comp s x)
        = (Outcome.returned (some x),
            { sync_priority_queue.push comp s x with
              data_ := q',
              effects := (sync_priority_queue.push comp s x).effects ++ [Effect.data_pull] }) ∧
      List.Perm q'._elements s.data_._elements := by
  have hpush : List.Perm (s.data_.push comp x)._elements (x :: s.data_._elements) :=
    priority_queue.push_perm s.data_ x
  have hne : (s.data_.push comp x).empty = false := by
    have hl := hpush.length_eq
    cases he : (s.data_.push comp x)._elements with
    | nil => rw [he] at hl; simp at hl
    | cons a l => simp [priority_queue.empty, he]
  obtain ⟨m, q', h1, h2, h3, _, _, h6⟩ := priority_queue.pull_max hc (s.data_.push comp x)
    ((priority_queue.Reachable.push x hr).isHeap hc) hne
  have hxin : x ∈ (s.data_.push comp x)._elements := hpush.mem_iff.mpr (List.mem_cons_self _ _)
  have hmx : m = x := by
    rcases List.mem_cons.mp (hpush.mem_iff.mp h2) with e | hold
    · exact e
    · have h4 := h3 x hxin
      rw [hbelow m hold] at h4
      exact (Bool.false_ne_true h4.symm).elim
  subst hmx
  refine ⟨q', ?_, ?_⟩
  · have hne' : (sync_priority_queue.push comp s m).data_.empty = false := hne
    have h1' : (sync_priority_queue.push comp s m).data_.pull comp
        = Outcome.returned (m, q') := h1
    simp only [sync_priority_queue.pull_no_wait, hne', Bool.false_eq_true, if_false,
      sync_priority_queue.pull_lk_of_pull h1', sync_priority_queue.make_optional]
  · exact ((hpush.symm.trans h6).cons_inv).symm

theorem push_then_pull_no_wait_witness :
    StrictWeakOrder natLess ∧ sample_queue.data_.Reachable natLess ∧
    (∀ y ∈ sample_queue.data_._elements, natLess y 7 = true) ∧
    ∃ q', sync_priority_queue.pull_no_wait natLess (sync_priority_queue.push natLess sample_queue 7)
        = (Outcome.returned (some 7),
            { sync_priority_queue.push natLess sample_queue 7 with
              data_ := q',
              effects := (sync_priority_queue.push natLess sample_queue 7).effects
                ++ [Effect.data_pull] }) ∧
      List.Perm q'._elements sample_queue.data_._elements :=
  ⟨natLess_strictWeakOrder, sample_queue_reachable, by decide,
    push_then_pull_no_wait natLess_strictWeakOrder sample_queue sample_queue_reachable 7
      (by decide)⟩

/-- C11, the claim as written fails: with 3, 5 and 4 in the store, `push(1)` followed
at once by `pull_no_wait()` returns present 5, not the item 1 just pushed. -/
theorem push_then_pull_no_wait_other_item :
    (sync_priority_queue.pull_no_wait natLess (sync_priority_queue.push natLess sample_queue 1)).1
      = Outcome.returned (some 5) ∧
    ¬ (sync_priority_queue.pull_no_wait natLess
        (sync_priority_queue.push natLess sample_queue 1)).1 = Outcome.returned (some 1) := by
  decide

/-- C12, the code at the failing input: on a closed queue the plain `push`, in its
copy and in its move overload, inserts the item all the same, so the store grows after
close; only `try_push` turns the item away. -/
theorem push_on_closed_queue_inserts :
    sample_closed_empty.closed = true ∧
    (sync_priority_queue.push natLess sample_closed_empty 7).data_._elements = [7] ∧
    (sync_priority_queue.push_move natLess sample_closed_empty 7).data_._elements = [7] ∧
    sample_closed_empty.data_.size = 0 ∧
    (sync_priority_queue.push natLess sample_closed_empty 7).data_.size = 1 ∧
    (sync_priority_queue.try_push natLess sample_closed_empty 7).2.data_.size = 0 ∧
    (sync_priority_queue.try_push_move natLess sample_closed_empty 7).2.data_.size = 0 := by
  decide

/-- C13, the code at the failing input: on the store built by pushing 3, 5 and 4,
whose array is 5, 3, 4, `top()` returns the last element 4, while the highest item,
the one the next `pull()` returns, is 5; and 4 is below 5. -/
theorem top_returns_last_element :
    sample_store.Reachable natLess ∧
    sample_store._elements = [5, 3, 4] ∧
    sample_store.top = Outcome.returned 4 ∧
    (∃ q', sample_store.pull natLess = Outcome.returned (5, q')) ∧
    natLess 4 5 = true :=
  ⟨sample_store_reachable, by decide, by decide, ⟨⟨[4, 3]⟩, by decide⟩, by decide⟩

/-- C14: the closed flag is monotonic.  On a closed queue every operation (`push`
and `try_push` in both overloads, every pull whatever its wakeups, `close` and the
destructor) leaves the queue closed, and so does every sequence of operations. -/
theorem closed_is_monotonic {α : Type} (comp : α → α → Bool) (s : sync_priority_queue α)
    (hcl : s.closed = true) (c : QueueCall α) (cs : List (QueueCall α)) :
    (c.run comp s).closed = true ∧ (QueueCall.run_all comp cs s).closed = true := by
  have step : ∀ (c : QueueCall α) (t : sync_priority_queue α), t.closed_ = true →
      (c.run comp t).closed_ = true := by
    intro c t ht
    cases c with
    | push x => exact ht
    | push_move x => exact ht
    | try_push x =>
      have : t.closed = true := ht
      simp [QueueCall.run, sync_priority_queue.try_push, this, ht]
    | try_push_move x =>
      have : t.closed = true := ht
      simp [QueueCall.run, sync_priority_queue.try_push_move, this, ht]
    | pulls p =>
      obtain ⟨k, _, h⟩ := PullCall.run_shape comp p t
      have h2 := (PullShape.facts comp h).2.1
      show (p.run comp t).2.closed_ = true
      rw [h2]
      exact sync_priority_queue.interfere_closed comp _ t ht
    | close => rfl
    | destroy =>
      have : t.closed = true := ht
      simp [QueueCall.run, sync_priority_queue.destroy, this, ht]
  refine ⟨step c s hcl, ?_⟩
  have all : ∀ (cs : List (QueueCall α)) (t : sync_priority_queue α), t.closed_ = true →
      (QueueCall.run_all comp cs t).closed_ = true := by
    intro cs
    induction cs with
    | nil => intro t ht; exact ht
    | cons d ds ih => intro t ht; exact ih _ (step d t ht)
  exact all cs s hcl

theorem closed_is_monotonic_witness :
    sample_closed.closed = true ∧
    ((QueueCall.push 7).run natLess sample_closed).closed = true ∧
    (QueueCall.run_all natLess
      [QueueCall.pulls (PullCall.pull_until 0 [sample_timeout]), QueueCall.try_push 1,
        QueueCall.push_move 2, QueueCall.destroy, QueueCall.pulls (PullCall.try_pull true [])]
      sample_closed).closed = true :=
  ⟨by decide,
    closed_is_monotonic natLess sample_closed (by decide) (QueueCall.push 7)
      [QueueCall.pulls (PullCall.pull_until 0 [sample_timeout]), QueueCall.try_push 1,
        QueueCall.push_move 2, QueueCall.destroy, QueueCall.pulls (PullCall.try_pull true [])]⟩

/-- C15: `try_pull_no_wait()` returns absent and leaves the state as it was when the
mutex is not obtained or the store is empty; with the mutex it is `pull_no_wait()`,
result and state alike: on a non-empty store present with a stored item that no
stored item is above, exactly that item removed. -/
theorem try_pull_no_wait_spec {α : Type} {comp : α → α → Bool} (hc : StrictWeakOrder comp)
    (s : sync_priority_queue α) (hr : s.data_.Reachable comp) (owns_lock : Bool) :
    ((owns_lock = false ∨ s.data_.empty = true) →
      sync_priority_queue.try_pull_no_wait comp owns_lock s = (Outcome.returned none, s)) ∧
    (owns_lock = true →
      sync_priority_queue.try_pull_no_wait comp owns_lock s
        = sync_priority_queue.pull_no_wait comp s) ∧
    (owns_lock = true → s.data_.empty = false →
      ∃ m q', sync_priority_queue.try_pull_no_wait comp owns_lock s
          = (Outcome.returned (some m),
              { s with data_ := q', effects := s.effects ++ [Effect.data_pull] }) ∧
        m ∈ s.data_._elements ∧
        (∀ x ∈ s.data_._elements, comp m x = false) ∧
        List.Perm s.data_._elements (m :: q'._elements)) := by
  refine ⟨?_, ?_, ?_⟩
  · intro h
    rcases h with h | h
    · simp [sync_priority_queue.try_pull_no_wait, h]
    · simp [sync_priority_queue.try_pull_no_wait, h]
  · intro h
    simp [sync_priority_queue.try_pull_no_wait, sync_priority_queue.pull_no_wait, h]
  · intro h hne
    obtain ⟨m, q', h1, h2, h3, _, _, h6⟩ :=
      priority_queue.pull_max hc s.data_ (hr.isHeap hc) hne
    refine ⟨m, q', ?_, h2, h3, h6⟩
    simp only [sync_priority_queue.try_pull_no_wait, h, hne, Bool.not_true, Bool.or_self,
      Bool.false_eq_true, if_false, sync_priority_queue.pull_lk_of_pull h1,
      sync_priority_queue.make_optional]

theorem try_pull_no_wait_spec_witness :
    StrictWeakOrder natLess ∧ sample_queue.data_.Reachable natLess ∧
    ((true = false ∨ sample_queue.data_.empty = true) →
      sync_priority_queue.try_pull_no_wait natLess true sample_queue
        = (Outcome.returned none, sample_queue)) ∧
    (true = true →
      sync_priority_queue.try_pull_no_wait natLess true sample_queue
        = sync_priority_queue.pull_no_wait natLess sample_queue) ∧
    (true = true → sample_queue.data_.empty = false →
      ∃ m q', sync_priority_queue.try_pull_no_wait natLess true sample_queue
          = (Outcome.returned (some m),
              { sample_queue with
                data_ := q', effects := sample_queue.effects ++ [Effect.data_pull] }) ∧
        m ∈ sample_queue.data_._elements ∧
        (∀ x ∈ sample_queue.data_._elements, natLess m x = false) ∧
        List.Perm sample_queue.data_._elements (m :: q'._elements)) :=
  ⟨natLess_strictWeakOrder, sample_queue_reachable,
    try_pull_no_wait_spec natLess_strictWeakOrder sample_queue sample_queue_reachable true⟩

/-- C17: every store reachable from the empty store by `push` and `pull`, for a strict
weak ordering, has the binary max-heap property on its array: for every index `i > 0`
the comparison of the element at `(i - 1) / 2` with the element at `i` is false; hence
no stored element is above the front element. -/
theorem reachable_store_is_heap {α : Type} {comp : α → α → Bool} (hc : StrictWeakOrder comp)
    (q : priority_queue α) (hr : q.Reachable comp) :
    IsHeap comp q._elements ∧
    (∀ (i : Nat) (hi : i < q._elements.length), 0 < i →
      comp (q._elements.get ⟨(i - 1) / 2, by omega⟩) (q._elements.get ⟨i, hi⟩) = false) ∧
    (∀ front, q._elements.head? = some front → ∀ y ∈ q._elements, comp front y = false) := by
  have heap := hr.isHeap hc
  refine ⟨heap, ?_, ?_⟩
  · intro i hi hpos
    have hp : (i - 1) / 2 < q._elements.length := by omega
    exact heap i _ _ hpos (List.getElem?_eq_getElem hp) (List.getElem?_eq_getElem hi)
  · intro front hf y hy
    obtain ⟨i, hi, hxi⟩ := List.getElem_of_mem hy
    rw [List.head?_eq_getElem?] at hf
    exact heap.front_max hc hf i y (by rw [List.getElem?_eq_getElem hi, hxi])

theorem reachable_store_is_heap_witness :
    StrictWeakOrder natLess ∧ sample_store.Reachable natLess ∧
    IsHeap natLess sample_store._elements ∧
    (∀ (i : Nat) (hi : i < sample_store._elements.length), 0 < i →
      natLess (sample_store._elements.get ⟨(i - 1) / 2, by omega⟩)
        (sample_store._elements.get ⟨i, hi⟩) = false) ∧
    (∀ front, sample_store._elements.head? = some front →
      ∀ y ∈ sample_store._elements, natLess front y = false) :=
  ⟨natLess_strictWeakOrder, sample_store_reachable,
    reachable_store_is_heap natLess_strictWeakOrder sample_store sample_store_reachable⟩

/-- C18: the signals, read off the record of effects.  Every `push` and every
`try_push` that returns success adds to the record the insertion of the item followed
by exactly one `notify_one`; a `try_push` that returns closed leaves the whole state
as it was; a pull call adds no signal: it ends on the record the other threads have
left, with at most the removal of an item added, so on the record it started from,
with at most that removal, when no other thread operates during its waits. -/
theorem signals_of_operations {α : Type} (comp : α → α → Bool) (s : sync_priority_queue α)
    (x : α) (c : PullCall α) :
    ((sync_priority_queue.push comp s x).data_ = s.data_.push comp x ∧
      (sync_priority_queue.push comp s x).effects
        = s.effects ++ [Effect.data_push x, Effect.notify_one]) ∧
    ((sync_priority_queue.push_move comp s x).data_ = s.data_.push comp x ∧
      (sync_priority_queue.push_move comp s x).effects
        = s.effects ++ [Effect.data_push x, Effect.notify_one]) ∧
    ((sync_priority_queue.try_push comp s x).1 = queue_op_status.success →
      (sync_priority_queue.try_push comp s x).2.data_ = s.data_.push comp x ∧
      (sync_priority_queue.try_push comp s x).2.effects
        = s.effects ++ [Effect.data_push x, Effect.notify_one]) ∧
    ((sync_priority_queue.try_push_move comp s x).1 = queue_op_status.success →
      (sync_priority_queue.try_push_move comp s x).2.data_ = s.data_.push comp x ∧
      (sync_priority_queue.try_push_move comp s x).2.effects
        = s.effects ++ [Effect.data_push x, Effect.notify_one]) ∧
    ((sync_priority_queue.try_push comp s x).1 = queue_op_status.closed →
      (sync_priority_queue.try_push comp s x).2 = s) ∧
    ((sync_priority_queue.try_push_move comp s x).1 = queue_op_status.closed →
      (sync_priority_queue.try_push_move comp s x).2 = s) ∧
    (∃ k, k ≤ c.wakes.length ∧
      ((c.run comp s).2.effects
          = (sync_priority_queue.interfere comp (c.wakes.take k) s).effects ∨
        (c.run comp s).2.effects
          = (sync_priority_queue.interfere comp (c.wakes.take k) s).effects
            ++ [Effect.data_pull])) ∧
    ((∀ w ∈ c.wakes, w.others = []) →
      ((c.run comp s).2.effects = s.effects ∨
        (c.run comp s).2.effects = s.effects ++ [Effect.data_pull]) ∧
      (c.run comp s).2.effects.countP Effect.is_signal
        = s.effects.countP Effect.is_signal) := by
  obtain ⟨k, hk, hshape⟩ := PullCall.run_shape comp c s
  have hfacts := (PullShape.facts comp hshape).2.2
  refine ⟨⟨rfl, rfl⟩, ⟨rfl, rfl⟩, ?_, ?_, ?_, ?_, ⟨k, hk, hfacts⟩, ?_⟩
  · intro h
    cases hcl : s.closed with
    | true => simp [sync_priority_queue.try_push, hcl] at h
    | false => simp [sync_priority_queue.try_push, hcl, sync_priority_queue.push_lk]
  · intro h
    cases hcl : s.closed with
    | true => simp [sync_priority_queue.try_push_move, hcl] at h
    | false => simp [sync_priority_queue.try_push_move, hcl, sync_priority_queue.push_rvalue]
  · intro h
    cases hcl : s.closed with
    | true => simp [sync_priority_queue.try_push, hcl]
    | false => simp [sync_priority_queue.try_push, hcl] at h
  · intro h
    cases hcl : s.closed with
    | true => simp [sync_priority_queue.try_push_move, hcl]
    | false => simp [sync_priority_queue.try_push_move, hcl] at h
  · intro hno
    have hsame : sync_priority_queue.interfere comp (c.wakes.take k) s = s :=
      sync_priority_queue.interfere_of_no_others comp _ s
        (fun w hw => hno w (List.mem_of_mem_take hw))
    rw [hsame] at hfacts
    refine ⟨hfacts, ?_⟩
    rcases hfacts with h | h
    · rw [h]
    · rw [h, List.countP_append]
      simp [Effect.is_signal]

/-- C19: the shell never pulls from an empty store.  The private `pull(lk)` is
undefined exactly on an empty store, the outcome of a pull call is never undefined,
and whenever a pull call reaches the private `pull(lk)` the store is not empty at that
moment, whatever the deadline and the wakeups. -/
theorem shell_never_pulls_empty_store {α : Type} (comp : α → α → Bool) (c : PullCall α)
    (s : sync_priority_queue α) :
    ((sync_priority_queue.pull_lk comp s).1 = Outcome.undefined ↔ s.data_.empty = true) ∧
    (c.run comp s).1 ≠ Outcome.undefined ∧
    ∃ k, k ≤ c.wakes.length ∧
      PullShape comp (c.run comp s) (sync_priority_queue.interfere comp (c.wakes.take k) s) := by
  obtain ⟨k, hk, hshape⟩ := PullCall.run_shape comp c s
  exact ⟨sync_priority_queue.pull_lk_undefined_iff comp s, (PullShape.facts comp hshape).1,
    k, hk, hshape⟩

/-- C20: `pull_until` checks again after every wakeup.  Started on an open queue with
an empty store, after any run of wakeups that report no timeout and hand back a store
still empty and a queue still open, the call has neither a result nor a failure: it is
waiting, on a queue again open and empty, and goes on with the next wakeup.  At that
next wakeup it returns absent if the wait reports a timeout; otherwise it returns
present if the store is not empty, raises if the store is empty and the queue closed,
and waits again if the store is empty and the queue open. -/
theorem pull_until_rechecks {α : Type} (comp : α → α → Bool) (s : sync_priority_queue α)
    (hop : s.closed = false) (hem : s.data_.empty = true) (tp : time_point)
    (pre : List (Wakeup α)) (hidle : sync_priority_queue.idle comp pre s = true)
    (w : Wakeup α) (rest : List (Wakeup α)) :
    sync_priority_queue.pull_until comp tp pre s
      = (Outcome.blocked, sync_priority_queue.interfere comp pre s) ∧
    (sync_priority_queue.interfere comp pre s).closed = false ∧
    (sync_priority_queue.interfere comp pre s).data_.empty = true ∧
    sync_priority_queue.pull_until comp tp (pre ++ rest) s
      = sync_priority_queue.pull_until comp tp rest (sync_priority_queue.interfere comp pre s) ∧
    (w.status = cv_status.timeout →
      sync_priority_queue.pull_until comp tp (pre ++ w :: rest) s
        = (Outcome.returned none, sync_priority_queue.interfere comp (pre ++ [w]) s)) ∧
    (w.status = cv_status.no_timeout →
      (sync_priority_queue.interfere comp (pre ++ [w]) s).data_.empty = false →
      sync_priority_queue.pull_until comp tp (pre ++ w :: rest) s
        = sync_priority_queue.make_optional
            (sync_priority_queue.pull_lk comp (sync_priority_queue.interfere comp (pre ++ [w]) s)) ∧
      ∃ m, (sync_priority_queue.pull_until comp tp (pre ++ w :: rest) s).1
        = Outcome.returned (some m)) ∧
    (w.status = cv_status.no_timeout →
      (sync_priority_queue.interfere comp (pre ++ [w]) s).data_.empty = true →
      (sync_priority_queue.interfere comp (pre ++ [w]) s).closed = true →
      sync_priority_queue.pull_until comp tp (pre ++ w :: rest) s
        = (Outcome.raised, sync_priority_queue.interfere comp (pre ++ [w]) s)) ∧
    (w.status = cv_status.no_timeout →
      (sync_priority_queue.interfere comp (pre ++ [w]) s).data_.empty = true →
      (sync_priority_queue.interfere comp (pre ++ [w]) s).closed = false →
      sync_priority_queue.pull_until comp tp (pre ++ w :: rest) s
        = sync_priority_queue.pull_until comp tp rest
            (sync_priority_queue.interfere comp (pre ++ [w]) s)) := by
  obtain ⟨i1, i2, i3⟩ := sync_priority_queue.pull_until_idle comp tp pre s hop hem hidle
  have hlast : sync_priority_queue.interfere comp (pre ++ [w]) s
      = sync_priority_queue.wait comp w (sync_priority_queue.interfere comp pre s) := by
    rw [sync_priority_queue.interfere_append]; rfl
  have hnext : sync_priority_queue.pull_until comp tp (pre ++ w :: rest) s
      = if w.status = cv_status.timeout then
          (Outcome.returned none, sync_priority_queue.interfere comp (pre ++ [w]) s)
        else sync_priority_queue.pull_until comp tp rest
          (sync_priority_queue.interfere comp (pre ++ [w]) s) := by
    rw [i3 (w :: rest), sync_priority_queue.pull_until_cons comp tp w rest i1 i2, hlast]
  have hnt : w.status = cv_status.no_timeout → ¬ w.status = cv_status.timeout := by
    intro h e; rw [h] at e; cases e
  refine ⟨?_, i1, i2, i3 rest, ?_, ?_, ?_, ?_⟩
  · have := i3 []
    rw [List.append_nil] at this
    rw [this, sync_priority_queue.pull_until_nil comp tp i1 i2]
  · intro hto
    rw [hnext, if_pos hto]
  · intro hst hne
    rw [hnext, if_neg (hnt hst), sync_priority_queue.pull_until_of_nonempty tp rest hne]
    refine ⟨rfl, ?_⟩
    obtain ⟨m, q', _, hp⟩ := sync_priority_queue.pull_lk_returns comp hne
    exact ⟨m, by rw [hp]; rfl⟩
  · intro hst hem' hcl'
    rw [hnext, if_neg (hnt hst),
      sync_priority_queue.pull_until_of_closed_empty tp rest hcl' hem']
  · intro hst _ _
    rw [hnext, if_neg (hnt hst)]

theorem pull_until_rechecks_witness :
    (sync_priority_queue.init : sync_priority_queue Nat).closed = false ∧
    (sync_priority_queue.init : sync_priority_queue Nat).data_.empty = true ∧
    sync_priority_queue.idle natLess sample_idle sync_priority_queue.init = true ∧
    sync_priority_queue.pull_until natLess 5 sample_idle sync_priority_queue.init
      = (Outcome.blocked,
          sync_priority_queue.interfere natLess sample_idle sync_priority_queue.init) ∧
    (sync_priority_queue.interfere natLess sample_idle sync_priority_queue.init).closed = false ∧
    (sync_priority_queue.interfere natLess sample_idle sync_priority_queue.init).data_.empty
      = true ∧
    sync_priority_queue.pull_until natLess 5 (sample_idle ++ [sample_timeout])
        sync_priority_queue.init
      = sync_priority_queue.pull_until natLess 5 [sample_timeout]
          (sync_priority_queue.interfere natLess sample_idle sync_priority_queue.init) ∧
    (sample_signal.status = cv_status.timeout →
      sync_priority_queue.pull_until natLess 5 (sample_idle ++ sample_signal :: [sample_timeout])
          sync_priority_queue.init
        = (Outcome.returned none,
            sync_priority_queue.interfere natLess (sample_idle ++ [sample_signal])
              sync_priority_queue.init)) ∧
    (sample_signal.status = cv_status.no_timeout →
      (sync_priority_queue.interfere natLess (sample_idle ++ [sample_signal])
        sync_priority_queue.init).data_.empty = false →
      sync_priority_queue.pull_until natLess 5 (sample_idle ++ sample_signal :: [sample_timeout])
          sync_priority_queue.init
        = sync_priority_queue.make_optional
            (sync_priority_queue.pull_lk natLess
              (sync_priority_queue.interfere natLess (sample_idle ++ [sample_signal])
                sync_priority_queue.init)) ∧
      ∃ m, (sync_priority_queue.pull_until natLess 5
          (sample_idle ++ sample_signal :: [sample_timeout]) sync_priority_queue.init).1
        = Outcome.returned (some m)) ∧
    (sample_signal.status = cv_status.no_timeout →
      (sync_priority_queue.interfere natLess (sample_idle ++ [sample_signal])
        sync_priority_queue.init).data_.empty = true →
      (sync_priority_queue.interfere natLess (sample_idle ++ [sample_signal])
        sync_priority_queue.init).closed = true →
      sync_priority_queue.pull_until natLess 5 (sample_idle ++ sample_signal :: [sample_timeout])
          sync_priority_queue.init
        = (Outcome.raised,
            sync_priority_queue.interfere natLess (sample_idle ++ [sample_signal])
              sync_priority_queue.init)) ∧
    (sample_signal.status = cv_status.no_timeout →
      (sync_priority_queue.interfere natLess (sample_idle ++ [sample_signal])
        sync_priority_queue.init).data_.empty = true →
      (sync_priority_queue.interfere natLess (sample_idle ++ [sample_signal])
        sync_priority_queue.init).closed = false →
      sync_priority_queue.pull_until natLess 5 (sample_idle ++ sample_signal :: [sample_timeout])
          sync_priority_queue.init
        = sync_priority_queue.pull_until natLess 5 [sample_timeout]
            (sync_priority_queue.interfere natLess (sample_idle ++ [sample_signal])
              sync_priority_queue.init)) :=
  ⟨by decide, by decide, by decide,
    pull_until_rechecks natLess sync_priority_queue.init (by decide) (by decide) 5
      sample_idle (by decide) sample_signal [sample_timeout]⟩
